import Mathlib

/-!
# A read-only in-memory FUSE filesystem (`main.go`)

Shallow embedding of the node graph of `main.go`, of the loop of `mount` that
builds it from the dataset `dirs`, and of the request handlers `Root`, `Lookup`,
`ReadDirAll`, `Attr`, `Open` and `Read`.

The handlers are embedded twice. On trees (`Node.Lookup`, `Node.Attr`, ...) a
node is a value that holds its children, and a handler is a function from the
node and the record it is handed to the result. On a memory with pointers
(`Mem.Lookup`, `Mem.Attr`, ...) a handler is a program of reads and writes
through addresses, which is what statements about the memory a handler leaves
behind are made on; `memAttr_eq`, `memRead_eq`, `memOpen_eq` and `memLookup_eq`
relate the two.

Conventions of the embedding:

* a Go pointer that may be `nil` is an `Option`; dereferencing `nil` is the
  outcome `Outcome.panic`;
* a Go `map[string]*Node` is an association list with one entry per key
  (`GoMap`); a `nil` map and an empty map read alike and are both `[]`;
* Go iterates over a map in an unspecified order: `ReadDirAll` lists the
  entries in the order of the association list, and every statement about a
  listing is made up to permutation;
* unsigned machine integers are natural numbers; signed ones are integers;
* a Go `string` is a `String`, and `[]byte(s)` is its UTF-8 encoding.
-/

namespace FuseDemo

/-! ## Results of a handler -/

/-- The two error numbers the handlers return. -/
inductive Errno where
  | ENOENT
  | EACCES
  deriving DecidableEq, Repr

/-- What a call does: it returns a value with a `nil` error, returns an error,
or panics on a `nil` pointer. -/
inductive Outcome (α : Type) where
  | ok (v : α)
  | error (e : Errno)
  | panic
  deriving Repr

/-- Sequencing of two steps; an error or a panic of the first ends the run. -/
def Outcome.bind {α β : Type} (x : Outcome α) (k : α → Outcome β) : Outcome β :=
  match x with
  | .ok v => k v
  | .error e => .error e
  | .panic => .panic

/-! ## Go maps with string keys -/

/-- A `map[string]*T`: one entry per key. -/
abbrev GoMap (β : Type) := List (String × β)

/-- The read `v, ok := m[k]`. -/
def mapGet {β : Type} : GoMap β → String → Option β
  | [], _ => none
  | (k', v) :: rest, k => if k' = k then some v else mapGet rest k

/-- The write `m[k] = v`: replaces the entry of `k`, or adds one. -/
def mapSet {β : Type} : GoMap β → String → β → GoMap β
  | [], k, v => [(k, v)]
  | (k', v') :: rest, k, v =>
    if k' = k then (k, v) :: rest else (k', v') :: mapSet rest k v

/-! ## Data model -/

/-- Modelled from the spec: `fuse.DirentType` of the library bazil.org/fuse is
not among the sources; the kinds of a directory entry, `DT_Unknown` being the
zero value. -/
inductive DirentType where
  | DT_Unknown
  | DT_Socket
  | DT_Link
  | DT_File
  | DT_Block
  | DT_Dir
  | DT_Char
  | DT_FIFO
  deriving DecidableEq, Repr

/-- The struct `FS`, over the type of its nodes. -/
structure FSOf (N : Type) where
  Nodes : List (String × N)

/-- The struct `Node`; `fs` is the pointer `*FS`, `none` when `nil`, and `Typ`
is the field `Type`. -/
structure Node where
  fs : Option (FSOf Node)
  Inode : Nat
  Name : String
  Typ : DirentType
  Content : List UInt8

/-- The struct `FS`. -/
abbrev FS := FSOf Node

/-- The struct `file` of the dataset. -/
structure file where
  name : String
  content : String
  deriving DecidableEq, Repr

/-- The struct `directory` of the dataset. -/
structure directory where
  name : String
  files : List file
  deriving DecidableEq, Repr

/-- The conversion `[]byte(s)`. -/
def bytesOf (s : String) : List UInt8 := s.toUTF8.data.toList

/-- The dataset `dirs`. -/
def dirs : List directory :=
  [ { name := "cat", files :=
      [ { name := "file1.txt", content := "This is file 1 + some random stuff..." },
        { name := "file2.txt", content := "This is file 2 + random stuff" },
        { name := "file3.txt",
          content := "This is file 3 + tail of characters to make the size unique" },
        { name := "file4.txt", content := "This is file 4 + Nothing to see here" },
        { name := "file5.txt", content := "This is file 5 + Usage" } ] },
    { name := "indices", files :=
      [ { name := "file6.txt", content := "This is file 6 + some random stuff..." },
        { name := "file7.txt", content := "This is file 7 + random stuff" },
        { name := "file8.txt",
          content := "This is file 8 + tail of characters to make the size unique" },
        { name := "file9.txt", content := "This is file 9 + Nothing to see here" },
        { name := "file10.txt", content := "This is file 10 + Usage" } ] },
    { name := "shards", files :=
      [ { name := "file11.txt", content := "This is file 11 + some random stuff..." },
        { name := "file12.txt", content := "This is file 12 + random stuff" },
        { name := "file13.txt",
          content := "This is file 13 + tail of characters to make the size unique" },
        { name := "file14.txt", content := "This is file 14 + Nothing to see here" },
        { name := "file15.txt", content := "This is file 15 + Usage" } ] } ]

/-! ## Identifiers of files -/

/-- One step of FNV-1a over 64 bits: exclusive or with the byte, then the
product with the FNV prime, modulo `2 ^ 64`. -/
def fnv1aStep (h : Nat) (b : UInt8) : Nat :=
  (Nat.xor h b.toNat * 1099511628211) % 2 ^ 64

/-- FNV-1a over a byte sequence, from the state `h`. -/
def fnv1aWrite (h : Nat) (bs : List UInt8) : Nat := bs.foldl fnv1aStep h

/-- The eight bytes of a 64-bit value, least significant first. -/
def littleEndian64 (v : Nat) : List UInt8 :=
  (List.range 8).map (fun k => UInt8.ofNat (v / 256 ^ k % 256))

/-- The loop of `GenerateDynamicInode`: while the sum is at most `bound`, one
more byte `'x'` is hashed. -/
def rehash (bound : Nat) : Nat → Nat → Nat
  | 0, h => h
  | fuel + 1, h => if h > bound then h else rehash bound fuel (fnv1aStep h 120)

/-- Modelled from the spec: `fs.GenerateDynamicInode` of the library
bazil.org/fuse is not among the sources; the identifier of a file is a
deterministic hash of the identifier of its parent and of its name, FNV-1a-64
over the 8 little-endian bytes of the parent followed by the name, hashed
again while the result is at most 1. The bound 1 is the one of the current
library; an older release hashes again only while the result is 0. With
either bound one more round suffices and the result is not 0 (see
`rehash_ne_zero`), and a first sum above 1 is returned as it is (see
`rehash_of_gt`). -/
def GenerateDynamicInode (parent : Nat) (name : String) : Nat :=
  rehash 1 2 (fnv1aWrite (fnv1aWrite 14695981039346656037 (littleEndian64 parent)) (bytesOf name))

/-! ## The builder loop of `mount` -/

/-- The file node `&Node{Name, Inode, Type: fuse.DT_File, Content}`; its
pointer `fs` is left `nil`. -/
def fileNode (i : Nat) (f : file) : Node :=
  { fs := none
    Inode := GenerateDynamicInode i f.name
    Name := f.name
    Typ := DirentType.DT_File
    Content := bytesOf f.content }

/-- A write through `filesys.Nodes[name].fs.Nodes`: the node stored under
`name` and its `fs` are dereferenced, and the child map becomes `g` of what it
was. -/
def withChildren (filesys : FS) (name : String) (g : GoMap Node → GoMap Node) : Outcome FS :=
  match mapGet filesys.Nodes name with
  | none => .panic
  | some p =>
    match p.fs with
    | none => .panic
    | some inner =>
      .ok { Nodes := mapSet filesys.Nodes name { p with fs := some { Nodes := g inner.Nodes } } }

/-- The inner loop, `filesys.Nodes[dir.name].fs.Nodes[f.name] = &Node{...}` for
each file in turn. -/
def addFiles (i : Nat) (dirName : String) : FS → List file → Outcome FS
  | filesys, [] => .ok filesys
  | filesys, f :: rest =>
    (withChildren filesys dirName (fun m => mapSet m f.name (fileNode i f))).bind
      (fun filesys' => addFiles i dirName filesys' rest)

/-- One round of the outer loop for the directory `dir` at index `i`. -/
def addDirectory (filesys : FS) (i : Nat) (dir : directory) : Outcome FS :=
  let filesys1 : FS :=
    { Nodes := mapSet filesys.Nodes dir.name
        { fs := some { Nodes := [] }, Inode := i, Name := dir.name,
          Typ := DirentType.DT_Dir, Content := [] } }
  (withChildren filesys1 dir.name (fun _ => [])).bind
    (fun filesys2 => addFiles i dir.name filesys2 dir.files)

/-- The outer loop `for i, dir := range dirs`, from index `i` on. -/
def buildFrom : FS → Nat → List directory → Outcome FS
  | filesys, _, [] => .ok filesys
  | filesys, i, dir :: rest =>
    (addDirectory filesys i dir).bind (fun filesys' => buildFrom filesys' (i + 1) rest)

/-- The tree `mount` hands to `Serve`: `filesys.Nodes = make(...)`, then the
loop over the dataset. -/
def buildTree (ds : List directory) : Outcome FS :=
  buildFrom { Nodes := [] } 0 ds

/-! ## The handlers -/

/-- `Root`: a fresh node whose `fs` is the filesystem, every other field zero. -/
def FS.Root (f : FS) : Outcome Node :=
  .ok { fs := some f, Inode := 0, Name := "", Typ := DirentType.DT_Unknown, Content := [] }

/-- `Lookup`: the read `n.fs.Nodes[name]`, and `ENOENT` when the key is absent. -/
def Node.Lookup (n : Node) (name : String) : Outcome Node :=
  match n.fs with
  | none => .panic
  | some f =>
    match mapGet f.Nodes name with
    | some node => .ok node
    | none => .error Errno.ENOENT

/-- Modelled from the spec: `fuse.Dirent` of bazil.org/fuse is not among the
sources; the (identifier, name, kind) triple of a listing. -/
structure Dirent where
  Inode : Nat
  Name : String
  Typ : DirentType
  deriving DecidableEq, Repr

/-- `ReadDirAll`: one entry per node of `n.fs.Nodes`. -/
def Node.ReadDirAll (n : Node) : Outcome (List Dirent) :=
  match n.fs with
  | none => .panic
  | some f =>
    .ok (f.Nodes.map (fun kv => { Inode := kv.2.Inode, Name := kv.2.Name, Typ := kv.2.Typ }))

/-- Modelled from the spec: `fuse.Attr` of bazil.org/fuse is not among the
sources; the fields `Attr` of `main.go` writes, and the other numeric ones. -/
structure Attr where
  Inode : Nat
  Size : Nat
  Blocks : Nat
  Mode : Nat
  Nlink : Nat
  Uid : Nat
  Gid : Nat
  Rdev : Nat
  BlockSize : Nat
  deriving DecidableEq, Repr

/-- The zero value of `fuse.Attr`. -/
def Attr.zero : Attr :=
  { Inode := 0, Size := 0, Blocks := 0, Mode := 0, Nlink := 0, Uid := 0, Gid := 0,
    Rdev := 0, BlockSize := 0 }

/-- The constant `os.ModeDir`, bit 31 of a file mode. -/
def ModeDir : Nat := 2 ^ 31

/-- `Attr`: the record after the call; the error is always `nil`. -/
def Node.Attr (n : Node) (a : FuseDemo.Attr) : Outcome FuseDemo.Attr :=
  let a1 : FuseDemo.Attr := { a with Mode := ModeDir ||| 0o555 }
  let a2 : FuseDemo.Attr :=
    if n.Typ = DirentType.DT_File then
      { a1 with Inode := n.Inode, Mode := 0o444, Size := n.Content.length }
    else a1
  let a3 : FuseDemo.Attr := if a2.Inode = 0 then { a2 with Inode := 1 } else a2
  .ok a3

/-- The constant `syscall.O_ACCMODE`, the mask of the access mode. -/
def O_ACCMODE : Nat := 3

/-- The constant `syscall.O_RDONLY`. -/
def O_RDONLY : Nat := 0

/-- The constant `syscall.O_WRONLY`. -/
def O_WRONLY : Nat := 1

/-- The constant `syscall.O_RDWR`. -/
def O_RDWR : Nat := 2

/-- The response flag `fuse.OpenDirectIO`, bit 0. -/
def OpenDirectIO : Nat := 1

/-- Modelled from the spec: `fuse.OpenRequest` of bazil.org/fuse is not among
the sources; the open flags of the request, which carry its access mode. -/
structure OpenRequest where
  Flags : Nat
  deriving DecidableEq, Repr

/-- Modelled from the spec: `fuse.OpenResponse` of bazil.org/fuse is not among
the sources; the flags of the response. -/
structure OpenResponse where
  Flags : Nat
  deriving DecidableEq, Repr

/-- Modelled from the spec: the method `OpenFlags.IsReadOnly` of bazil.org/fuse
is not among the sources; the requested access mode is read-only. -/
def OpenRequest.IsReadOnly (req : OpenRequest) : Bool :=
  req.Flags &&& O_ACCMODE == O_RDONLY

/-- `Open`: the response after the call, and the handle or the error. -/
def Node.Open (n : Node) (req : OpenRequest) (resp : OpenResponse) :
    OpenResponse × Outcome Node :=
  if !req.IsReadOnly then (resp, .error Errno.EACCES)
  else ({ resp with Flags := resp.Flags ||| OpenDirectIO }, .ok n)

/-- Modelled from the spec: `fuse.ReadRequest` of bazil.org/fuse is not among
the sources; the offset and the maximal length of a read. -/
structure ReadRequest where
  Offset : Int
  Size : Int
  deriving DecidableEq, Repr

/-- Modelled from the spec: `fuse.ReadResponse` of bazil.org/fuse is not among
the sources; the byte slice `Data` handed back, as its bytes and its capacity. -/
structure ReadResponse where
  Data : List UInt8
  Cap : Nat
  deriving DecidableEq, Repr

/-- Modelled from the spec: `fuseutil.HandleRead` of bazil.org/fuse is not
among the sources. The response holds the part of `data` that starts at the
offset, cut to the maximal length, and nothing when the offset is at or beyond
the end, as section 4.3 says. Where section 4.3 speaks of clamping, the model
follows the library, which slices with the offset and the size as they come:
`data[req.Offset:]` when the offset is below the end, `data[:req.Size]` and
`resp.Data[:req.Size]`. A negative offset, a negative size and a size above
the capacity of `resp.Data` are slice bounds out of range, and panic. -/
def HandleRead (req : ReadRequest) (resp : ReadResponse) (data : List UInt8) :
    Outcome ReadResponse :=
  let rest : Outcome (List UInt8) :=
    if (data.length : Int) ≤ req.Offset then .ok []
    else if req.Offset < 0 then .panic
    else .ok (data.drop req.Offset.toNat)
  rest.bind (fun tail =>
    if req.Size < 0 then .panic
    else if resp.Cap < req.Size.toNat then .panic
    else .ok { resp with Data := tail.take req.Size.toNat })

/-- `Read`: the offset and the size go to `HandleRead` as they come; when it
returns, the response after the call is handed back with a `nil` error (the
line printed to standard output is left out). -/
def Node.Read (n : Node) (req : ReadRequest) (resp : ReadResponse) : Outcome ReadResponse :=
  (HandleRead req resp n.Content).bind (fun out => .ok out)

/-- The Go slice expression `c[lo:hi]`. -/
def sliceOf (c : List UInt8) (lo hi : Nat) : List UInt8 := (c.take hi).drop lo

/-! ## What the builder loop leaves behind -/

/-- The child map of a directory once the inner loop has run over `files`,
from the child map `m`. -/
def childrenFrom (i : Nat) : GoMap Node → List file → GoMap Node
  | m, [] => m
  | m, f :: rest => childrenFrom i (mapSet m f.name (fileNode i f)) rest

/-- The node stored under `dir.name` once the round of `dir` is over. -/
def dirNode (i : Nat) (dir : directory) : Node :=
  { fs := some { Nodes := childrenFrom i [] dir.files }
    Inode := i
    Name := dir.name
    Typ := DirentType.DT_Dir
    Content := [] }

/-- The map `filesys.Nodes` once the outer loop has run over `ds` from index
`i`, from the map `m`. -/
def nodesFrom : GoMap Node → Nat → List directory → GoMap Node
  | m, _, [] => m
  | m, i, dir :: rest => nodesFrom (mapSet m dir.name (dirNode i dir)) (i + 1) rest

/-- The names of the directories are pairwise distinct, and so are the names of
the files of each directory. -/
def distinctNames (ds : List directory) : Prop :=
  (ds.map (fun d => d.name)).Nodup ∧ ∀ d ∈ ds, (d.files.map (fun f => f.name)).Nodup

instance (ds : List directory) : Decidable (distinctNames ds) := by
  unfold distinctNames
  infer_instance

/-- Every node of the map is stored under its own name. -/
def keysAreNames (m : GoMap Node) : Prop := ∀ kv ∈ m, kv.2.Name = kv.1

/-- The nodes stored in the tree: those of the map of the filesystem, each
followed by those of its own child map. -/
def storedNodes (filesys : FS) : List Node :=
  filesys.Nodes.flatMap (fun kv =>
    kv.2 :: (match kv.2.fs with
      | none => []
      | some inner => inner.Nodes.map (fun c => c.2)))

/-! ## The handlers as programs on a memory with pointers -/

/-- The struct `Node` as it lies in memory: `fs` is the address of the struct
`FS` it points to, `none` when the pointer is `nil`. -/
structure NodeCell where
  fs : Option Nat
  Inode : Nat
  Name : String
  Typ : DirentType
  Content : List UInt8

/-- An object of the memory: a struct `Node`, a struct `FS` with its map from
names to the addresses of nodes, or one of the records a handler is handed a
pointer to. -/
inductive Obj where
  | node (c : NodeCell)
  | fs (Nodes : GoMap Nat)
  | attr (a : Attr)
  | openResponse (r : OpenResponse)
  | readResponse (r : ReadResponse)

/-- The object is part of the filesystem tree: a node or a struct `FS`. -/
def Obj.isTree : Obj → Bool
  | .node _ => true
  | .fs _ => true
  | _ => false

/-- The memory: the object at each address, if there is one. -/
abbrev Heap := Nat → Option Obj

/-- The filesystem tree held by a memory: its nodes and structs `FS`, with
their addresses. -/
def treePart (h : Heap) : Nat → Option Obj :=
  fun addr =>
    match h addr with
    | some o => if o.isTree then some o else none
    | none => none

/-- A handler as a program on the memory: from the memory before the call to
the memory after it, and what the call returns. -/
def Prog (α : Type) : Type := Heap → Heap × Outcome α

/-- The program that returns `v`. -/
def Prog.ret {α : Type} (v : α) : Prog α := fun h => (h, .ok v)

/-- The program that returns the error `e`. -/
def Prog.fail {α : Type} (e : Errno) : Prog α := fun h => (h, .error e)

/-- Two programs in sequence; an error or a panic of the first ends the run. -/
def Prog.bind {α β : Type} (x : Prog α) (k : α → Prog β) : Prog β := fun h =>
  match x h with
  | (h1, .ok v) => k v h1
  | (h1, .error e) => (h1, .error e)
  | (h1, .panic) => (h1, .panic)

/-- The read through a pointer to a node; a `nil` pointer panics. -/
def loadNode (p : Option Nat) : Prog NodeCell := fun h =>
  match p with
  | none => (h, .panic)
  | some addr =>
    match h addr with
    | some (.node c) => (h, .ok c)
    | _ => (h, .panic)

/-- The read of the map `Nodes` through a pointer to a struct `FS`; a `nil`
pointer panics. -/
def loadFS (p : Option Nat) : Prog (GoMap Nat) := fun h =>
  match p with
  | none => (h, .panic)
  | some addr =>
    match h addr with
    | some (.fs m) => (h, .ok m)
    | _ => (h, .panic)

/-- The read of the record a pointer `*fuse.Attr` points to. -/
def loadAttr (addr : Nat) : Prog Attr := fun h =>
  match h addr with
  | some (.attr a) => (h, .ok a)
  | _ => (h, .panic)

/-- An assignment to a field of the record a pointer `*fuse.Attr` points to. -/
def modifyAttr (addr : Nat) (g : Attr → Attr) : Prog Unit := fun h =>
  match h addr with
  | some (.attr a) => (Function.update h addr (some (.attr (g a))), .ok ())
  | _ => (h, .panic)

/-- An assignment to a field of the record a pointer `*fuse.OpenResponse`
points to. -/
def modifyOpenResponse (addr : Nat) (g : OpenResponse → OpenResponse) : Prog Unit := fun h =>
  match h addr with
  | some (.openResponse r) => (Function.update h addr (some (.openResponse (g r))), .ok ())
  | _ => (h, .panic)

/-- The call `fuseutil.HandleRead(req, resp, data)` on the record the pointer
`resp` points to. -/
def handleReadAt (req : ReadRequest) (addr : Nat) (data : List UInt8) : Prog Unit := fun h =>
  match h addr with
  | some (.readResponse r) =>
    match HandleRead req r data with
    | .ok out => (Function.update h addr (some (.readResponse out)), .ok ())
    | .error e => (h, .error e)
    | .panic => (h, .panic)
  | _ => (h, .panic)

/-- `Lookup` on the node at the address `n`: the address of the child. -/
def Mem.Lookup (n : Nat) (name : String) : Prog Nat :=
  (loadNode (some n)).bind fun c =>
  (loadFS c.fs).bind fun nodes =>
  match mapGet nodes name with
  | some node => Prog.ret node
  | none => Prog.fail Errno.ENOENT

/-- The loop of `ReadDirAll` over the entries of the map: each node is read
through its pointer. -/
def Mem.dirents : GoMap Nat → Prog (List Dirent)
  | [] => Prog.ret []
  | kv :: rest =>
    (loadNode (some kv.2)).bind fun node =>
    (Mem.dirents rest).bind fun tail =>
    Prog.ret ({ Inode := node.Inode, Name := node.Name, Typ := node.Typ } :: tail)

/-- `ReadDirAll` on the node at the address `n`. -/
def Mem.ReadDirAll (n : Nat) : Prog (List Dirent) :=
  (loadNode (some n)).bind fun c =>
  (loadFS c.fs).bind fun nodes =>
  Mem.dirents nodes

/-- `Attr` on the node at the address `n`, with the record at the address `a`. -/
def Mem.Attr (n : Nat) (a : Nat) : Prog Unit :=
  (modifyAttr a (fun r => { r with Mode := ModeDir ||| 0o555 })).bind fun _ =>
  (loadNode (some n)).bind fun c =>
  (if c.Typ = DirentType.DT_File then
    (modifyAttr a (fun r => { r with Inode := c.Inode })).bind fun _ =>
    (modifyAttr a (fun r => { r with Mode := 0o444 })).bind fun _ =>
    modifyAttr a (fun r => { r with Size := c.Content.length })
  else Prog.ret ()).bind fun _ =>
  (loadAttr a).bind fun r =>
  (if r.Inode = 0 then modifyAttr a (fun r => { r with Inode := 1 })
  else Prog.ret ()).bind fun _ =>
  Prog.ret ()

/-- `Open` on the node at the address `n`, with the response at the address
`resp`: the handle is the address of the node. -/
def Mem.Open (n : Nat) (req : OpenRequest) (resp : Nat) : Prog Nat :=
  if !req.IsReadOnly then Prog.fail Errno.EACCES
  else
    (modifyOpenResponse resp (fun r => { r with Flags := r.Flags ||| OpenDirectIO })).bind
      fun _ => Prog.ret n

/-- `Read` on the node at the address `n`, with the response at the address
`resp` (the line printed to standard output is left out). -/
def Mem.Read (n : Nat) (req : ReadRequest) (resp : Nat) : Prog Unit :=
  (loadNode (some n)).bind fun c =>
  (handleReadAt req resp c.Content).bind fun _ =>
  Prog.ret ()

/-- The address holds a record a handler may write to, not a part of the tree. -/
def isRecord (o : Option Obj) : Prop := ∃ obj, o = some obj ∧ obj.isTree = false

/-- The program leaves the memory as it is. -/
def Prog.ReadOnly {α : Type} (x : Prog α) : Prop := ∀ h : Heap, (x h).1 = h

/-- The program changes the memory at most at the address `w`, and only from a
record to a record. -/
def Prog.Keeps {α : Type} (w : Nat) (x : Prog α) : Prop :=
  ∀ (h : Heap) (addr : Nat),
    (x h).1 addr = h addr ∨ (addr = w ∧ isRecord (h addr) ∧ isRecord ((x h).1 addr))

/-- A memory with a small tree: the root at 0 with its `FS` at 1, the
directory "cat" at 2 with its `FS` at 3, the file "file1.txt" at 4, and a zero
attribute record at 10, an open response at 11 and a read response of capacity
64 at 12. -/
def sampleHeap : Heap := fun addr =>
  match addr with
  | 0 => some (.node ⟨some 1, 0, "", DirentType.DT_Unknown, []⟩)
  | 1 => some (.fs [("cat", 2)])
  | 2 => some (.node ⟨some 3, 0, "cat", DirentType.DT_Dir, []⟩)
  | 3 => some (.fs [("file1.txt", 4)])
  | 4 => some (.node ⟨none, GenerateDynamicInode 0 "file1.txt", "file1.txt",
      DirentType.DT_File, bytesOf "This is file 1 + some random stuff..."⟩)
  | 10 => some (.attr Attr.zero)
  | 11 => some (.openResponse ⟨0⟩)
  | 12 => some (.readResponse ⟨[], 64⟩)
  | _ => none

/-! ## Lemmas on maps -/

theorem mapGet_mapSet_self {β : Type} (m : GoMap β) (k : String) (v : β) :
    mapGet (mapSet m k v) k = some v := by
  induction m with
  | nil => simp [mapSet, mapGet]
  | cons kv rest ih =>
    obtain ⟨k', v'⟩ := kv
    by_cases h : k' = k
    · simp [mapSet, mapGet, h]
    · simp [mapSet, mapGet, h, ih]

theorem mapGet_mapSet_ne {β : Type} (m : GoMap β) (k k' : String) (v : β) (h : k ≠ k') :
    mapGet (mapSet m k v) k' = mapGet m k' := by
  induction m with
  | nil => simp [mapSet, mapGet, h]
  | cons kv rest ih =>
    obtain ⟨k0, v0⟩ := kv
    by_cases h0 : k0 = k
    · subst h0
      simp [mapSet, mapGet, h]
    · by_cases h1 : k0 = k'
      · subst h1
        simp [mapSet, mapGet, h0]
      · simp [mapSet, mapGet, h0, h1, ih]

theorem mapSet_mapSet_self {β : Type} (m : GoMap β) (k : String) (v w : β) :
    mapSet (mapSet m k v) k w = mapSet m k w := by
  induction m with
  | nil => simp [mapSet]
  | cons kv rest ih =>
    obtain ⟨k0, v0⟩ := kv
    by_cases h0 : k0 = k
    · simp [mapSet, h0]
    · simp [mapSet, h0, ih]

theorem mapSet_of_absent {β : Type} (m : GoMap β) (k : String) (v : β)
    (h : k ∉ m.map Prod.fst) : mapSet m k v = m ++ [(k, v)] := by
  induction m with
  | nil => simp [mapSet]
  | cons kv rest ih =>
    obtain ⟨k0, v0⟩ := kv
    simp only [List.map_cons, List.mem_cons, not_or] at h
    have h0 : ¬ k0 = k := fun e => h.1 e.symm
    simp [mapSet, h0, ih h.2]

theorem mapGet_of_mem {β : Type} (m : GoMap β) (k : String) (v : β)
    (hn : (m.map Prod.fst).Nodup) (hm : (k, v) ∈ m) : mapGet m k = some v := by
  induction m with
  | nil => simp at hm
  | cons kv rest ih =>
    obtain ⟨k0, v0⟩ := kv
    simp only [List.map_cons, List.nodup_cons] at hn
    rcases List.mem_cons.1 hm with e | hm'
    · cases e
      simp [mapGet]
    · have h0 : ¬ k0 = k := by
        intro e
        subst e
        exact hn.1 (List.mem_map.2 ⟨(k0, v), hm', rfl⟩)
      simp [mapGet, h0, ih hn.2 hm']

theorem mapGet_eq_none_iff {β : Type} (m : GoMap β) (k : String) :
    mapGet m k = none ↔ k ∉ m.map Prod.fst := by
  induction m with
  | nil => simp [mapGet]
  | cons kv rest ih =>
    obtain ⟨k0, v0⟩ := kv
    by_cases h0 : k0 = k
    · simp [mapGet, h0]
    · have h1 : ¬ k = k0 := fun e => h0 e.symm
      simp [mapGet, h0, h1, ih]

theorem mem_of_mapGet {β : Type} (m : GoMap β) (k : String) (v : β)
    (h : mapGet m k = some v) : (k, v) ∈ m := by
  induction m with
  | nil => simp [mapGet] at h
  | cons kv rest ih =>
    obtain ⟨k0, v0⟩ := kv
    by_cases h0 : k0 = k
    · simp [mapGet, h0] at h
      simp [h0, h]
    · simp [mapGet, h0] at h
      exact List.mem_cons_of_mem _ (ih h)

theorem forall_mem_mapSet {β : Type} (P : String × β → Prop) (m : GoMap β) (k : String)
    (v : β) (hm : ∀ kv ∈ m, P kv) (hv : P (k, v)) : ∀ kv ∈ mapSet m k v, P kv := by
  induction m with
  | nil =>
    intro kv hkv
    simp [mapSet] at hkv
    exact hkv ▸ hv
  | cons kv0 rest ih =>
    obtain ⟨k0, v0⟩ := kv0
    intro kv hkv
    by_cases h0 : k0 = k
    · simp only [mapSet, h0, if_true, List.mem_cons] at hkv
      rcases hkv with e | hr
      · exact e ▸ hv
      · exact hm kv (List.mem_cons_of_mem _ hr)
    · simp only [mapSet, h0, if_false, List.mem_cons] at hkv
      rcases hkv with e | hr
      · exact e ▸ hm (k0, v0) (List.mem_cons_self _ _)
      · exact ih (fun x hx => hm x (List.mem_cons_of_mem _ hx)) kv hr

theorem mapSet_of_mapGet {β : Type} (m : GoMap β) (k : String) (v : β)
    (h : mapGet m k = some v) : mapSet m k v = m := by
  induction m with
  | nil => simp [mapGet] at h
  | cons kv rest ih =>
    obtain ⟨k0, v0⟩ := kv
    by_cases h0 : k0 = k
    · simp [mapGet, h0] at h
      simp [mapSet, h0, h]
    · simp [mapGet, h0] at h
      simp [mapSet, h0, ih h]

/-! ## The builder loop in closed form -/

/-- The loop of `GenerateDynamicInode` with the bound 1 ends within two rounds,
on an identifier above 1. -/
theorem rehash_gt_one (h : Nat) : 1 < rehash 1 2 h := by
  by_cases h1 : h > 1
  · simp [rehash, h1]
  · have h2 : h = 0 ∨ h = 1 := by omega
    rcases h2 with e | e <;> subst e <;> decide

/-- With the bound 0 or 1 the loop of `GenerateDynamicInode` ends within two
rounds, on an identifier that is not 0. -/
theorem rehash_ne_zero (bound : Nat) (hb : bound ≤ 1) (h : Nat) : rehash bound 2 h ≠ 0 := by
  have hbound : bound = 0 ∨ bound = 1 := by omega
  by_cases h1 : h > bound
  · have e : rehash bound 2 h = h := by simp [rehash, h1]
    rw [e]
    omega
  · have h2 : h = 0 ∨ h = 1 := by omega
    rcases hbound with eb | eb <;> rcases h2 with e | e <;> subst eb <;> subst e <;> decide

/-- A sum above the bound is returned as it is: no round is added. -/
theorem rehash_of_gt (bound fuel h : Nat) (hgt : bound < h) :
    rehash bound (fuel + 1) h = h := by
  simp [rehash, hgt]


theorem withChildren_eq (filesys : FS) (name : String) (g : GoMap Node → GoMap Node)
    (p : Node) (inner : FS) (hp : mapGet filesys.Nodes name = some p)
    (hi : p.fs = some inner) :
    withChildren filesys name g =
      .ok { Nodes := mapSet filesys.Nodes name { p with fs := some { Nodes := g inner.Nodes } } } := by
  simp [withChildren, hp, hi]

theorem addFiles_eq (i : Nat) (name : String) (files : List file) :
    ∀ (filesys : FS) (p : Node) (inner : FS), mapGet filesys.Nodes name = some p →
      p.fs = some inner →
      addFiles i name filesys files =
        .ok { Nodes := mapSet filesys.Nodes name
                { p with fs := some { Nodes := childrenFrom i inner.Nodes files } } } := by
  induction files with
  | nil =>
    intro filesys p inner hp hi
    have e : ({ p with fs := some { Nodes := inner.Nodes } } : Node) = p := by
      cases p
      cases inner
      simp_all
    simp [addFiles, childrenFrom, e, mapSet_of_mapGet _ _ _ hp]
  | cons f rest ih =>
    intro filesys p inner hp hi
    rw [addFiles, withChildren_eq filesys name _ p inner hp hi]
    simp only [Outcome.bind]
    rw [ih _ _ _ (mapGet_mapSet_self _ _ _) rfl]
    simp [mapSet_mapSet_self, childrenFrom]

theorem addDirectory_eq (filesys : FS) (i : Nat) (dir : directory) :
    addDirectory filesys i dir =
      .ok { Nodes := mapSet filesys.Nodes dir.name (dirNode i dir) } := by
  unfold addDirectory
  simp only []
  rw [withChildren_eq _ dir.name _ _ _ (mapGet_mapSet_self _ _ _) rfl]
  simp only [Outcome.bind]
  rw [addFiles_eq i dir.name dir.files _ _ _ (mapGet_mapSet_self _ _ _) rfl]
  simp [mapSet_mapSet_self, dirNode]

theorem buildFrom_eq (ds : List directory) :
    ∀ (filesys : FS) (i : Nat),
      buildFrom filesys i ds = .ok { Nodes := nodesFrom filesys.Nodes i ds } := by
  induction ds with
  | nil =>
    intro filesys i
    simp [buildFrom, nodesFrom]
  | cons d rest ih =>
    intro filesys i
    rw [buildFrom, addDirectory_eq]
    simp only [Outcome.bind]
    rw [ih]
    simp [nodesFrom]

/-- The builder loop never panics: it returns the map in closed form. -/
theorem buildTree_eq (ds : List directory) :
    buildTree ds = .ok { Nodes := nodesFrom [] 0 ds } := by
  simp [buildTree, buildFrom_eq]

theorem childrenFrom_distinct (i : Nat) (files : List file) :
    ∀ (m : GoMap Node), (m.map Prod.fst ++ files.map (fun f => f.name)).Nodup →
      childrenFrom i m files = m ++ files.map (fun f => (f.name, fileNode i f)) := by
  induction files with
  | nil =>
    intro m _
    simp [childrenFrom]
  | cons f rest ih =>
    intro m h
    have hf : f.name ∉ m.map Prod.fst := by
      intro hmem
      have := List.disjoint_of_nodup_append h hmem
      exact this (List.mem_cons_self _ _)
    rw [childrenFrom, mapSet_of_absent m f.name _ hf, ih]
    · simp
    · simpa using h

theorem nodesFrom_distinct (ds : List directory) :
    ∀ (m : GoMap Node) (i : Nat), (m.map Prod.fst ++ ds.map (fun d => d.name)).Nodup →
      nodesFrom m i ds =
        m ++ (ds.enumFrom i).map (fun p => (p.2.name, dirNode p.1 p.2)) := by
  induction ds with
  | nil =>
    intro m i _
    simp [nodesFrom]
  | cons d rest ih =>
    intro m i h
    have hd : d.name ∉ m.map Prod.fst := by
      intro hmem
      have := List.disjoint_of_nodup_append h hmem
      exact this (List.mem_cons_self _ _)
    rw [nodesFrom, mapSet_of_absent m d.name _ hd, ih]
    · simp [List.enumFrom_cons]
    · simpa using h

theorem names_enumFrom (ds : List directory) :
    ∀ i : Nat, (ds.enumFrom i).map (Prod.fst ∘ fun p => (p.2.name, dirNode p.1 p.2))
      = ds.map (fun d => d.name) := by
  induction ds with
  | nil => intro i; rfl
  | cons d rest ih =>
    intro i
    simp only [List.enumFrom_cons, List.map_cons, Function.comp_apply, ih (i + 1)]

theorem mapGet_nodesFrom (ds : List directory) (hn : (ds.map (fun d => d.name)).Nodup)
    (i : Nat) (D : directory) (hD : (i, D) ∈ ds.enumFrom 0) :
    mapGet (nodesFrom [] 0 ds) D.name = some (dirNode i D) := by
  rw [nodesFrom_distinct ds [] 0 (by simpa using hn)]
  apply mapGet_of_mem
  · rw [List.nil_append, List.map_map]
    exact (names_enumFrom ds 0).symm ▸ hn
  · rw [List.nil_append]
    exact List.mem_map.2 ⟨(i, D), hD, rfl⟩

theorem mapGet_childrenFrom (i : Nat) (files : List file)
    (hn : (files.map (fun f => f.name)).Nodup) (F : file) (hF : F ∈ files) :
    mapGet (childrenFrom i [] files) F.name = some (fileNode i F) := by
  rw [childrenFrom_distinct i files [] (by simpa using hn)]
  apply mapGet_of_mem
  · simpa [List.map_map, Function.comp_def] using hn
  · rw [List.nil_append]
    exact List.mem_map.2 ⟨F, hF, rfl⟩

theorem exists_index_of_mem (ds : List directory) (D : directory) (hD : D ∈ ds) :
    ∃ i, (i, D) ∈ ds.enumFrom 0 := by
  obtain ⟨i, hi, e⟩ := List.getElem_of_mem hD
  refine ⟨i, ?_⟩
  rw [List.mk_mem_enumFrom_iff_le_and_getElem?_sub]
  simp [List.getElem?_eq_getElem hi, e]

theorem childrenFrom_keysAreNames (i : Nat) (files : List file) :
    ∀ m : GoMap Node, keysAreNames m → keysAreNames (childrenFrom i m files) := by
  induction files with
  | nil => intro m hm; exact hm
  | cons f rest ih =>
    intro m hm
    exact ih _ (forall_mem_mapSet (fun kv : String × Node => kv.2.Name = kv.1) m f.name _ hm rfl)

theorem nodesFrom_keysAreNames (ds : List directory) :
    ∀ (m : GoMap Node) (i : Nat),
      (∀ kv ∈ m, kv.2.Name = kv.1 ∧ ∃ inner : FS, kv.2.fs = some inner ∧ keysAreNames inner.Nodes) →
      ∀ kv ∈ nodesFrom m i ds,
        kv.2.Name = kv.1 ∧ ∃ inner : FS, kv.2.fs = some inner ∧ keysAreNames inner.Nodes := by
  induction ds with
  | nil => intro m i hm; exact hm
  | cons d rest ih =>
    intro m i hm
    refine ih _ _ (forall_mem_mapSet _ m d.name _ hm ⟨rfl, _, rfl, ?_⟩)
    exact childrenFrom_keysAreNames i d.files [] (fun kv hkv => by simp at hkv)

theorem HandleRead_data (req : ReadRequest) (resp : ReadResponse) (data : List UInt8)
    (hoff : 0 ≤ req.Offset) (hsz : 0 ≤ req.Size) (hcap : req.Size.toNat ≤ resp.Cap) :
    HandleRead req resp data =
      .ok { resp with Data := (data.drop req.Offset.toNat).take req.Size.toNat } := by
  have hneg : ¬ req.Offset < 0 := by omega
  have hsneg : ¬ req.Size < 0 := by omega
  have hc : ¬ resp.Cap < req.Size.toNat := by omega
  by_cases h : (data.length : Int) ≤ req.Offset
  · have hlen : data.length ≤ req.Offset.toNat := by omega
    simp [HandleRead, Outcome.bind, h, hsneg, hc, List.drop_eq_nil_of_le hlen]
  · simp [HandleRead, Outcome.bind, h, hneg, hsneg, hc]

theorem Read_data (n : Node) (req : ReadRequest) (resp : ReadResponse)
    (hoff : 0 ≤ req.Offset) (hsz : 0 ≤ req.Size) (hcap : req.Size.toNat ≤ resp.Cap) :
    n.Read req resp =
      .ok { resp with Data := (n.Content.drop req.Offset.toNat).take req.Size.toNat } := by
  simp [Node.Read, HandleRead_data req resp n.Content hoff hsz hcap, Outcome.bind]

theorem take_drop_window (data : List UInt8) (off size : Nat) (h : off < data.length) :
    (data.drop off).take size = sliceOf data off (min (off + size) data.length) := by
  unfold sliceOf
  rw [List.drop_take]
  apply List.ext_getElem?
  intro k
  simp only [List.getElem?_take, List.getElem?_drop]
  by_cases hk : k < size
  · by_cases hk2 : off + k < data.length
    · have hk3 : k < min (off + size) data.length - off := by omega
      simp [hk, hk3]
    · have hk3 : data[off + k]? = none := List.getElem?_eq_none (by omega)
      simp [hk3]
  · have hk3 : ¬ k < min (off + size) data.length - off := by omega
    simp [hk, hk3]

theorem attr_mode_eq (n : Node) (a : Attr) :
    ∃ a2, n.Attr a = .ok a2 ∧
      a2.Mode = (if n.Typ = DirentType.DT_File then 0o444 else ModeDir ||| 0o555) := by
  refine ⟨_, rfl, ?_⟩
  by_cases h : n.Typ = DirentType.DT_File
  · by_cases h2 : n.Inode = 0 <;> simp [h, h2]
  · by_cases h2 : a.Inode = 0 <;> simp [h, h2]

theorem childrenFrom_forall (Q : String × Node → Prop) (i : Nat) (files : List file) :
    ∀ m : GoMap Node, (∀ kv ∈ m, Q kv) → (∀ f ∈ files, Q (f.name, fileNode i f)) →
      ∀ kv ∈ childrenFrom i m files, Q kv := by
  induction files with
  | nil => intro m hm _; exact hm
  | cons f rest ih =>
    intro m hm hf
    exact ih _ (forall_mem_mapSet Q m f.name _ hm (hf f (List.mem_cons_self _ _)))
      (fun g hg => hf g (List.mem_cons_of_mem _ hg))

theorem nodesFrom_forall (Q : String × Node → Prop) (ds : List directory) :
    ∀ (m : GoMap Node) (i : Nat), (∀ kv ∈ m, Q kv) →
      (∀ p ∈ ds.enumFrom i, Q (p.2.name, dirNode p.1 p.2)) →
      ∀ kv ∈ nodesFrom m i ds, Q kv := by
  induction ds with
  | nil => intro m i hm _; exact hm
  | cons d rest ih =>
    intro m i hm hd
    refine ih _ _ (forall_mem_mapSet Q m d.name _ hm ?_) ?_
    · exact hd (i, d) (by simp [List.enumFrom_cons])
    · intro p hp
      exact hd p (by simp [List.enumFrom_cons, hp])

/-- Every node stored by the builder is the node of a directory of the dataset,
with its position as identifier, or the node of one of its files. -/
theorem mem_storedNodes_build (ds : List directory) (n : Node)
    (hn : n ∈ storedNodes { Nodes := nodesFrom [] 0 ds }) :
    ∃ p ∈ ds.enumFrom 0, n = dirNode p.1 p.2 ∨ ∃ f ∈ p.2.files, n = fileNode p.1 f := by
  simp only [storedNodes, List.mem_flatMap] at hn
  obtain ⟨kv, hkv, hmem⟩ := hn
  have hq := nodesFrom_forall
    (fun kv => ∃ p ∈ ds.enumFrom 0, kv = (p.2.name, dirNode p.1 p.2)) ds [] 0
    (fun kv h => by simp at h) (fun p hp => ⟨p, hp, rfl⟩) kv hkv
  obtain ⟨p, hp, rfl⟩ := hq
  refine ⟨p, hp, ?_⟩
  simp only [dirNode, List.mem_cons, List.mem_map] at hmem
  rcases hmem with e | ⟨c, hc, e⟩
  · exact Or.inl e
  · right
    have hc2 := childrenFrom_forall (fun kv => ∃ f ∈ p.2.files, kv = (f.name, fileNode p.1 f))
      p.1 p.2.files [] (fun kv h => by simp at h) (fun f hf => ⟨f, hf, rfl⟩) c hc
    obtain ⟨f, hf, rfl⟩ := hc2
    exact ⟨f, hf, e.symm⟩

/-- The identifier of a file is not 0. -/
theorem GenerateDynamicInode_ne_zero (parent : Nat) (name : String) :
    GenerateDynamicInode parent name ≠ 0 := rehash_ne_zero 1 (Nat.le_refl 1) _

/-- A node stored by the builder is a file node without child map, or a
directory node with one. -/
theorem stored_kinds (ds : List directory) (n : Node)
    (hn : n ∈ storedNodes { Nodes := nodesFrom [] 0 ds }) :
    (n.Typ = DirentType.DT_File ∧ n.fs = none) ∨
    (n.Typ = DirentType.DT_Dir ∧ ∃ inner : FS, n.fs = some inner) := by
  obtain ⟨p, _, h | ⟨f, _, h⟩⟩ := mem_storedNodes_build ds n hn
  · subst h
    exact Or.inr ⟨rfl, _, rfl⟩
  · subst h
    exact Or.inl ⟨rfl, rfl⟩

theorem mapGet_childrenFrom_of_not_mem (i : Nat) (files : List file) (name : String) :
    ∀ m : GoMap Node, name ∉ files.map (fun f => f.name) →
      mapGet (childrenFrom i m files) name = mapGet m name := by
  induction files with
  | nil => intro m _; rfl
  | cons f rest ih =>
    intro m h
    simp only [List.map_cons, List.mem_cons, not_or] at h
    rw [childrenFrom, ih _ h.2, mapGet_mapSet_ne _ _ _ _ (fun e => h.1 e.symm)]

theorem mapGet_nodesFrom_of_not_mem (ds : List directory) (name : String) :
    ∀ (m : GoMap Node) (i : Nat), name ∉ ds.map (fun d => d.name) →
      mapGet (nodesFrom m i ds) name = mapGet m name := by
  induction ds with
  | nil => intro m i _; rfl
  | cons d rest ih =>
    intro m i h
    simp only [List.map_cons, List.mem_cons, not_or] at h
    rw [nodesFrom, ih _ _ h.2, mapGet_mapSet_ne _ _ _ _ (fun e => h.1 e.symm)]

/-- The child stored under the name of a file of the dataset is the node of a
file of that name, the last one when the name is repeated. -/
theorem mapGet_childrenFrom_some (i : Nat) (files : List file) :
    ∀ (m : GoMap Node) (F : file), F ∈ files →
      ∃ G ∈ files, G.name = F.name ∧
        mapGet (childrenFrom i m files) F.name = some (fileNode i G) := by
  induction files with
  | nil => intro m F hF; simp at hF
  | cons f rest ih =>
    intro m F hF
    by_cases hr : F.name ∈ rest.map (fun f => f.name)
    · obtain ⟨F2, hF2, e⟩ := List.mem_map.1 hr
      obtain ⟨G, hG, hGn, hget⟩ := ih (mapSet m f.name (fileNode i f)) F2 hF2
      refine ⟨G, List.mem_cons_of_mem _ hG, hGn.trans e, ?_⟩
      have e2 : F2.name = F.name := e
      rw [childrenFrom, ← e2]
      exact hget
    · have hFf : F = f := by
        rcases List.mem_cons.1 hF with h | h
        · exact h
        · exact absurd (List.mem_map.2 ⟨F, h, rfl⟩) hr
      subst hFf
      refine ⟨F, List.mem_cons_self _ _, rfl, ?_⟩
      rw [childrenFrom, mapGet_childrenFrom_of_not_mem i rest F.name _ hr, mapGet_mapSet_self]

theorem mem_keys_mapSet {β : Type} (m : GoMap β) (k : String) (v : β) (x : String) :
    x ∈ (mapSet m k v).map Prod.fst ↔ x = k ∨ x ∈ m.map Prod.fst := by
  induction m with
  | nil => simp [mapSet]
  | cons kv rest ih =>
    obtain ⟨k0, v0⟩ := kv
    by_cases h0 : k0 = k
    · subst h0
      simp [mapSet]
    · simp only [mapSet, h0, if_false, List.map_cons, List.mem_cons, ih]
      tauto

theorem nodup_keys_mapSet {β : Type} (m : GoMap β) (k : String) (v : β)
    (h : (m.map Prod.fst).Nodup) : ((mapSet m k v).map Prod.fst).Nodup := by
  induction m with
  | nil => simp [mapSet]
  | cons kv rest ih =>
    obtain ⟨k0, v0⟩ := kv
    simp only [List.map_cons, List.nodup_cons] at h
    by_cases h0 : k0 = k
    · subst h0
      simpa [mapSet] using h
    · simp only [mapSet, h0, if_false, List.map_cons, List.nodup_cons, mem_keys_mapSet]
      exact ⟨fun hc => hc.elim id h.1, ih h.2⟩

theorem keys_childrenFrom (i : Nat) (files : List file) :
    ∀ m : GoMap Node, (m.map Prod.fst).Nodup →
      ((childrenFrom i m files).map Prod.fst).Nodup ∧
      ∀ x, x ∈ (childrenFrom i m files).map Prod.fst ↔
        x ∈ m.map Prod.fst ∨ x ∈ files.map (fun f => f.name) := by
  induction files with
  | nil => intro m h; simp [childrenFrom, h]
  | cons f rest ih =>
    intro m h
    obtain ⟨h1, h2⟩ := ih (mapSet m f.name (fileNode i f)) (nodup_keys_mapSet _ _ _ h)
    refine ⟨h1, fun x => ?_⟩
    rw [childrenFrom, h2, mem_keys_mapSet]
    simp only [List.map_cons, List.mem_cons]
    tauto

theorem nodup_keys_nodesFrom (ds : List directory) :
    ∀ (m : GoMap Node) (i : Nat), (m.map Prod.fst).Nodup →
      ((nodesFrom m i ds).map Prod.fst).Nodup := by
  induction ds with
  | nil => intro m i h; exact h
  | cons d rest ih =>
    intro m i h
    exact ih _ _ (nodup_keys_mapSet _ _ _ h)

/-- The directory node stored under a name is the one of the last directory of
the dataset with that name. -/
theorem mapGet_nodesFrom_last (ds : List directory) :
    ∀ (m : GoMap Node) (i j : Nat) (D : directory), ds[j]? = some D →
      (∀ (k : Nat) (D2 : directory), j < k → ds[k]? = some D2 → D2.name ≠ D.name) →
      mapGet (nodesFrom m i ds) D.name = some (dirNode (i + j) D) := by
  induction ds with
  | nil => intro m i j D hj; simp at hj
  | cons d rest ih =>
    intro m i j D hj hlast
    cases j with
    | zero =>
      simp only [List.getElem?_cons_zero, Option.some.injEq] at hj
      subst hj
      have hnot : d.name ∉ rest.map (fun d => d.name) := by
        intro hmem
        obtain ⟨D2, hD2, e⟩ := List.mem_map.1 hmem
        obtain ⟨k, hk, e2⟩ := List.getElem_of_mem hD2
        refine hlast (k + 1) D2 (Nat.succ_pos k) ?_ e
        simp [List.getElem?_eq_getElem hk, e2]
      rw [nodesFrom, mapGet_nodesFrom_of_not_mem rest d.name _ _ hnot, mapGet_mapSet_self]
      rfl
    | succ j2 =>
      simp only [List.getElem?_cons_succ] at hj
      have h := ih (mapSet m d.name (dirNode i d)) (i + 1) j2 D hj
        (fun k D2 hk hD2 => hlast (k + 1) D2 (Nat.succ_lt_succ hk) (by simpa using hD2))
      rw [nodesFrom, h]
      have e : i + 1 + j2 = i + (j2 + 1) := by omega
      rw [e]

/-- The file node stored under a name is the one of the last file of the
directory with that name. -/
theorem mapGet_childrenFrom_last (i : Nat) (files : List file) :
    ∀ (m : GoMap Node) (q : Nat) (F : file), files[q]? = some F →
      (∀ (r : Nat) (F2 : file), q < r → files[r]? = some F2 → F2.name ≠ F.name) →
      mapGet (childrenFrom i m files) F.name = some (fileNode i F) := by
  induction files with
  | nil => intro m q F hq; simp at hq
  | cons f rest ih =>
    intro m q F hq hlast
    cases q with
    | zero =>
      simp only [List.getElem?_cons_zero, Option.some.injEq] at hq
      subst hq
      have hnot : f.name ∉ rest.map (fun f => f.name) := by
        intro hmem
        obtain ⟨F2, hF2, e⟩ := List.mem_map.1 hmem
        obtain ⟨k, hk, e2⟩ := List.getElem_of_mem hF2
        refine hlast (k + 1) F2 (Nat.succ_pos k) ?_ e
        simp [List.getElem?_eq_getElem hk, e2]
      rw [childrenFrom, mapGet_childrenFrom_of_not_mem i rest f.name _ hnot,
        mapGet_mapSet_self]
    | succ q2 =>
      simp only [List.getElem?_cons_succ] at hq
      rw [childrenFrom]
      exact ih (mapSet m f.name (fileNode i f)) q2 F hq
        (fun r F2 hr hF2 => hlast (r + 1) F2 (Nat.succ_lt_succ hr) (by simpa using hF2))

/-- The names in a listing are the keys of the map when every node is stored
under its own name. -/
theorem names_of_listing (m : GoMap Node) (h : keysAreNames m) :
    (m.map (fun kv => ({ Inode := kv.2.Inode, Name := kv.2.Name, Typ := kv.2.Typ } : Dirent))).map
      (fun e => e.Name) = m.map Prod.fst := by
  rw [List.map_map]
  apply List.map_congr_left
  intro kv hkv
  exact h kv hkv

theorem keysAreNames_nodesFrom (ds : List directory) : keysAreNames (nodesFrom [] 0 ds) :=
  fun kv h => (nodesFrom_keysAreNames ds [] 0 (fun kv h => by simp at h) kv h).1

theorem keysAreNames_children (i : Nat) (files : List file) :
    keysAreNames (childrenFrom i [] files) :=
  childrenFrom_keysAreNames i files [] (fun kv h => by simp at h)

theorem lookup_found_iff (n : Node) (inner : FS) (h : n.fs = some inner) (name : String) :
    (∃ c, n.Lookup name = .ok c) ↔ name ∈ inner.Nodes.map Prod.fst := by
  cases hget : mapGet inner.Nodes name with
  | none =>
    have hk := (mapGet_eq_none_iff inner.Nodes name).1 hget
    simp [Node.Lookup, h, hget, hk]
  | some v =>
    have hk : name ∈ inner.Nodes.map Prod.fst :=
      List.mem_map.2 ⟨(name, v), mem_of_mapGet _ _ _ hget, rfl⟩
    simp only [Node.Lookup, h, hget, hk, iff_true]
    exact ⟨v, rfl⟩

/-- What `Lookup` and `ReadDirAll` give on the node the builder stores for the
directory `D` at position `j`. -/
theorem dirNode_children (j : Nat) (D : directory) :
    ∃ fes, (dirNode j D).ReadDirAll = .ok fes ∧
      ((fes.map (fun e => e.Name)).Nodup) ∧
      (∀ name : String,
        name ∈ fes.map (fun e => e.Name) ↔ name ∈ D.files.map (fun f => f.name)) ∧
      (∀ name : String,
        (∃ c, (dirNode j D).Lookup name = .ok c) ↔ name ∈ D.files.map (fun f => f.name)) ∧
      (∀ name : String, name ∉ D.files.map (fun f => f.name) →
        (dirNode j D).Lookup name = .error Errno.ENOENT) ∧
      (∀ (name : String) (c : Node), (dirNode j D).Lookup name = .ok c →
        ∃ F ∈ D.files, F.name = name ∧ c.Content = bytesOf F.content ∧
          c.Inode = GenerateDynamicInode j name ∧ c.Typ = DirentType.DT_File) := by
  obtain ⟨hnd, hkeys⟩ := keys_childrenFrom j D.files [] (by simp)
  have hnames := names_of_listing _ (keysAreNames_children j D.files)
  have hfound := lookup_found_iff (dirNode j D) { Nodes := childrenFrom j [] D.files } rfl
  refine ⟨_, rfl, ?_, ?_, ?_, ?_, ?_⟩
  · rw [hnames]
    exact hnd
  · intro name
    rw [hnames, hkeys]
    simp
  · intro name
    rw [hfound, hkeys]
    simp
  · intro name hname
    have hk : name ∉ (childrenFrom j [] D.files).map Prod.fst := by
      rw [hkeys]
      simpa using hname
    simp [Node.Lookup, dirNode, (mapGet_eq_none_iff _ name).2 hk]
  · intro name c hc
    have hget : mapGet (childrenFrom j [] D.files) name = some c := by
      cases h : mapGet (childrenFrom j [] D.files) name with
      | none => simp [Node.Lookup, dirNode, h] at hc
      | some v =>
        simp [Node.Lookup, dirNode, h] at hc
        rw [hc]
    have hq := childrenFrom_forall
      (fun kv => ∃ F ∈ D.files, kv = (F.name, fileNode j F)) j D.files []
      (fun kv h => by simp at h) (fun f hf => ⟨f, hf, rfl⟩) (name, c)
      (mem_of_mapGet _ _ _ hget)
    obtain ⟨F, hF, e⟩ := hq
    simp only [Prod.mk.injEq] at e
    obtain ⟨e1, e2⟩ := e
    subst e1 e2
    exact ⟨F, hF, rfl, rfl, rfl, rfl⟩

/-- The root of a built tree: the listing has one entry per key, and the
directory found under the name of the last directory `D` with that name, at
position `j`, is the node built for `D`. -/
theorem root_last_directory (ds : List directory) (j : Nat) (D : directory)
    (hj : ds[j]? = some D)
    (hlast : ∀ (k : Nat) (D2 : directory), j < k → ds[k]? = some D2 → D2.name ≠ D.name) :
    ∃ es, (Node.mk (some { Nodes := nodesFrom [] 0 ds }) 0 "" DirentType.DT_Unknown
        []).ReadDirAll = .ok es ∧
      (es.map (fun e => e.Name)).count D.name = 1 ∧
      (Node.mk (some { Nodes := nodesFrom [] 0 ds }) 0 "" DirentType.DT_Unknown []).Lookup
        D.name = .ok (dirNode j D) := by
  have hget := mapGet_nodesFrom_last ds [] 0 j D hj hlast
  rw [Nat.zero_add] at hget
  refine ⟨_, rfl, ?_, ?_⟩
  · rw [names_of_listing _ (keysAreNames_nodesFrom ds)]
    exact List.count_eq_one_of_mem (nodup_keys_nodesFrom ds [] 0 (by simp))
      (List.mem_map.2 ⟨(D.name, dirNode j D), mem_of_mapGet _ _ _ hget, rfl⟩)
  · simp [Node.Lookup, hget]

/-! ## Lemmas on the programs -/

theorem Prog.ReadOnly.keeps {α : Type} {x : Prog α} (hx : x.ReadOnly) (w : Nat) :
    x.Keeps w := by
  intro h addr
  rw [hx h]
  exact Or.inl rfl

theorem readOnly_ret {α : Type} (v : α) : (Prog.ret v).ReadOnly := fun _ => rfl

theorem readOnly_fail {α : Type} (e : Errno) : (Prog.fail e : Prog α).ReadOnly := fun _ => rfl

theorem readOnly_loadNode (p : Option Nat) : (loadNode p).ReadOnly := by
  intro h
  unfold loadNode
  split
  · rfl
  · split <;> rfl

theorem readOnly_loadFS (p : Option Nat) : (loadFS p).ReadOnly := by
  intro h
  unfold loadFS
  split
  · rfl
  · split <;> rfl

theorem readOnly_loadAttr (addr : Nat) : (loadAttr addr).ReadOnly := by
  intro h
  unfold loadAttr
  split <;> rfl

theorem readOnly_bind {α β : Type} {x : Prog α} {k : α → Prog β} (hx : x.ReadOnly)
    (hk : ∀ v, (k v).ReadOnly) : (x.bind k).ReadOnly := by
  intro h
  show (Prog.bind x k h).1 = h
  unfold Prog.bind
  have h1 := hx h
  split
  · rename_i h2 v e
    rw [e] at h1
    rw [hk v h2]
    exact h1
  · rename_i h2 v e
    rw [e] at h1
    exact h1
  · rename_i h2 e
    rw [e] at h1
    exact h1

theorem keeps_bind {α β : Type} {w : Nat} {x : Prog α} {k : α → Prog β} (hx : x.Keeps w)
    (hk : ∀ v, (k v).Keeps w) : (x.bind k).Keeps w := by
  intro h addr
  show (Prog.bind x k h).1 addr = h addr ∨ (addr = w ∧ isRecord (h addr) ∧
    isRecord ((Prog.bind x k h).1 addr))
  unfold Prog.bind
  have h1 := hx h addr
  split
  · rename_i h2 v e
    rw [e] at h1
    have h3 := hk v h2 addr
    rcases h1 with e1 | ⟨ea, r1, r2⟩
    · rcases h3 with e3 | ⟨ea, r3, r4⟩
      · exact Or.inl (e3.trans e1)
      · exact Or.inr ⟨ea, e1 ▸ r3, r4⟩
    · rcases h3 with e3 | ⟨_, _, r4⟩
      · exact Or.inr ⟨ea, r1, e3 ▸ r2⟩
      · exact Or.inr ⟨ea, r1, r4⟩
  · rename_i h2 v e
    rw [e] at h1
    exact h1
  · rename_i h2 e
    rw [e] at h1
    exact h1

theorem keeps_ite {α : Type} {w : Nat} (c : Prop) [Decidable c] {x y : Prog α}
    (hx : x.Keeps w) (hy : y.Keeps w) : (if c then x else y).Keeps w := by
  split
  · exact hx
  · exact hy

theorem keeps_modifyAttr (addr : Nat) (g : Attr → Attr) : (modifyAttr addr g).Keeps addr := by
  intro h p
  unfold modifyAttr
  split
  · rename_i a e
    by_cases hp : p = addr
    · subst hp
      exact Or.inr ⟨rfl, ⟨_, e, rfl⟩, ⟨Obj.attr (g a), by simp, rfl⟩⟩
    · exact Or.inl (by simp [Function.update, hp])
  · exact Or.inl rfl

theorem keeps_modifyOpenResponse (addr : Nat) (g : OpenResponse → OpenResponse) :
    (modifyOpenResponse addr g).Keeps addr := by
  intro h p
  unfold modifyOpenResponse
  split
  · rename_i a e
    by_cases hp : p = addr
    · subst hp
      exact Or.inr ⟨rfl, ⟨_, e, rfl⟩, ⟨Obj.openResponse (g a), by simp, rfl⟩⟩
    · exact Or.inl (by simp [Function.update, hp])
  · exact Or.inl rfl

theorem keeps_handleReadAt (req : ReadRequest) (addr : Nat) (data : List UInt8) :
    (handleReadAt req addr data).Keeps addr := by
  intro h p
  unfold handleReadAt
  split
  · rename_i r e
    split
    · rename_i out _
      by_cases hp : p = addr
      · subst hp
        exact Or.inr ⟨rfl, ⟨_, e, rfl⟩, ⟨Obj.readResponse out, by simp, rfl⟩⟩
      · exact Or.inl (by simp [Function.update, hp])
    · exact Or.inl rfl
    · exact Or.inl rfl
  · exact Or.inl rfl

theorem readOnly_Lookup (n : Nat) (name : String) : (Mem.Lookup n name).ReadOnly := by
  unfold Mem.Lookup
  refine readOnly_bind (readOnly_loadNode _) (fun c => ?_)
  refine readOnly_bind (readOnly_loadFS _) (fun nodes => ?_)
  split
  · exact readOnly_ret _
  · exact readOnly_fail _

theorem readOnly_dirents (m : GoMap Nat) : (Mem.dirents m).ReadOnly := by
  induction m with
  | nil => exact readOnly_ret _
  | cons kv rest ih =>
    unfold Mem.dirents
    refine readOnly_bind (readOnly_loadNode _) (fun node => ?_)
    exact readOnly_bind ih (fun tail => readOnly_ret _)

theorem readOnly_ReadDirAll (n : Nat) : (Mem.ReadDirAll n).ReadOnly := by
  unfold Mem.ReadDirAll
  refine readOnly_bind (readOnly_loadNode _) (fun c => ?_)
  exact readOnly_bind (readOnly_loadFS _) (fun nodes => readOnly_dirents nodes)

theorem keeps_Attr (n a : Nat) : (Mem.Attr n a).Keeps a := by
  unfold Mem.Attr
  refine keeps_bind (keeps_modifyAttr _ _) (fun _ => ?_)
  refine keeps_bind ((readOnly_loadNode _).keeps a) (fun c => ?_)
  refine keeps_bind ?_ (fun _ => ?_)
  · refine keeps_ite _ ?_ ((readOnly_ret _).keeps a)
    refine keeps_bind (keeps_modifyAttr _ _) (fun _ => ?_)
    exact keeps_bind (keeps_modifyAttr _ _) (fun _ => keeps_modifyAttr _ _)
  · refine keeps_bind ((readOnly_loadAttr _).keeps a) (fun r => ?_)
    refine keeps_bind ?_ (fun _ => (readOnly_ret _).keeps a)
    exact keeps_ite _ (keeps_modifyAttr _ _) ((readOnly_ret _).keeps a)

theorem keeps_Open (n : Nat) (req : OpenRequest) (resp : Nat) :
    (Mem.Open n req resp).Keeps resp := by
  unfold Mem.Open
  refine keeps_ite _ ((readOnly_fail _).keeps resp) ?_
  exact keeps_bind (keeps_modifyOpenResponse _ _) (fun _ => (readOnly_ret _).keeps resp)

theorem keeps_Read (n : Nat) (req : ReadRequest) (resp : Nat) :
    (Mem.Read n req resp).Keeps resp := by
  unfold Mem.Read
  refine keeps_bind ((readOnly_loadNode _).keeps resp) (fun c => ?_)
  exact keeps_bind (keeps_handleReadAt _ _ _) (fun _ => (readOnly_ret _).keeps resp)

theorem treePart_of_keeps {α : Type} {w : Nat} {x : Prog α} (hx : x.Keeps w) (h : Heap) :
    treePart (x h).1 = treePart h := by
  funext addr
  rcases hx h addr with e | ⟨_, ⟨o1, e1, t1⟩, ⟨o2, e2, t2⟩⟩
  · simp only [treePart, e]
  · simp only [treePart, e1, e2, t1, t2]
    rfl

theorem reset_of_keeps {α : Type} {w : Nat} {x : Prog α} (hx : x.Keeps w) (h : Heap) :
    Function.update (x h).1 w (h w) = h := by
  funext addr
  by_cases hp : addr = w
  · subst hp
    simp
  · rcases hx h addr with e | ⟨ea, _, _⟩
    · simp [Function.update, hp, e]
    · exact absurd ea hp

/-- On a node and an attribute record of the memory, `Mem.Attr` stores the
record `Node.Attr` computes from the fields of the node. -/
theorem memAttr_eq (h : Heap) (n a : Nat) (c : NodeCell) (r : Attr)
    (hn : h n = some (.node c)) (ha : h a = some (.attr r)) :
    ∃ r2, (Node.mk none c.Inode c.Name c.Typ c.Content).Attr r = .ok r2 ∧
      Mem.Attr n a h = (Function.update h a (some (.attr r2)), .ok ()) := by
  have hna : n ≠ a := by
    intro e
    rw [e, ha] at hn
    cases hn
  refine ⟨_, rfl, ?_⟩
  by_cases ht : c.Typ = DirentType.DT_File
  · by_cases hi : c.Inode = 0 <;>
      simp [Mem.Attr, Prog.bind, Prog.ret, modifyAttr, loadNode, loadAttr, ha, hn, hna,
        Function.update, ht, hi]
  · by_cases hi : r.Inode = 0 <;>
      simp [Mem.Attr, Prog.bind, Prog.ret, modifyAttr, loadNode, loadAttr, ha, hn, hna,
        Function.update, ht, hi]

/-- On a node and a read response of the memory, `Mem.Read` stores the
response `Node.Read` computes from the content of the node. -/
theorem memRead_eq (h : Heap) (n resp : Nat) (req : ReadRequest) (c : NodeCell)
    (r : ReadResponse) (hn : h n = some (.node c)) (hr : h resp = some (.readResponse r)) :
    Mem.Read n req resp h =
      match (Node.mk none c.Inode c.Name c.Typ c.Content).Read req r with
      | .ok out => (Function.update h resp (some (.readResponse out)), .ok ())
      | .error e => (h, .error e)
      | .panic => (h, .panic) := by
  cases hh : HandleRead req r c.Content <;>
    simp [Mem.Read, Node.Read, Prog.bind, Prog.ret, Outcome.bind, loadNode, handleReadAt, hn,
      hr, hh]

/-- On an open response of the memory, `Mem.Open` stores the response
`Node.Open` computes and returns the address of the node, or returns the error
`Node.Open` returns. -/
theorem memOpen_eq (h : Heap) (n resp : Nat) (req : OpenRequest) (nd : Node)
    (r : OpenResponse) (hr : h resp = some (.openResponse r)) :
    Mem.Open n req resp h =
      match (nd.Open req r).2 with
      | .ok _ => (Function.update h resp (some (.openResponse (nd.Open req r).1)), .ok n)
      | .error e => (h, .error e)
      | .panic => (h, .panic) := by
  cases hro : req.IsReadOnly <;>
    simp [Mem.Open, Node.Open, Prog.bind, Prog.ret, Prog.fail, modifyOpenResponse, hr, hro]

/-- On a node of the memory, `Mem.Lookup` reads the map of the struct `FS` the
node points to, and panics when the pointer is `nil`. -/
theorem memLookup_eq (h : Heap) (n : Nat) (name : String) (c : NodeCell)
    (hn : h n = some (.node c)) :
    (c.fs = none → (Mem.Lookup n name h).2 = .panic) ∧
    (∀ (f : Nat) (m : GoMap Nat), c.fs = some f → h f = some (.fs m) →
      (Mem.Lookup n name h).2 =
        match mapGet m name with
        | some child => .ok child
        | none => .error Errno.ENOENT) := by
  constructor
  · intro hfs
    simp [Mem.Lookup, Prog.bind, loadNode, loadFS, hn, hfs]
  · intro f m hfs hf
    cases hg : mapGet m name <;>
      simp [Mem.Lookup, Prog.bind, Prog.ret, Prog.fail, loadNode, loadFS, hn, hfs, hf, hg]

/-- What `HandleRead` hands back depends on the response it is given only
through its capacity, which it keeps: run again on its own result, it returns
that result. -/
theorem HandleRead_again (req : ReadRequest) (r out : ReadResponse) (data : List UInt8)
    (h : HandleRead req r data = .ok out) : HandleRead req out data = .ok out := by
  unfold HandleRead at h ⊢
  by_cases h1 : (data.length : Int) ≤ req.Offset
  · by_cases h2 : req.Size < 0
    · simp [Outcome.bind, h1, h2] at h
    · by_cases h3 : r.Cap < req.Size.toNat
      · simp [Outcome.bind, h1, h2, h3] at h
      · simp only [Outcome.bind, h1, h2, h3, if_true, if_false, Outcome.ok.injEq] at h
        subst h
        simp [Outcome.bind, h1, h2, h3]
  · by_cases h0 : req.Offset < 0
    · simp [Outcome.bind, h1, h0] at h
    · by_cases h2 : req.Size < 0
      · simp [Outcome.bind, h1, h0, h2] at h
      · by_cases h3 : r.Cap < req.Size.toNat
        · simp [Outcome.bind, h1, h0, h2, h3] at h
        · simp only [Outcome.bind, h1, h0, h2, h3, if_false, Outcome.ok.injEq] at h
          subst h
          simp [Outcome.bind, h1, h0, h2, h3]

/-- A second `Read` right after the first, with the response as the first
left it, returns what the first returned and leaves the memory as the first
left it. -/
theorem memRead_again (h : Heap) (n resp : Nat) (req : ReadRequest) :
    Mem.Read n req resp (Mem.Read n req resp h).1 = Mem.Read n req resp h := by
  cases hn : h n with
  | none => simp [Mem.Read, Prog.bind, loadNode, hn]
  | some o =>
    cases o with
    | node c =>
      cases hr : h resp with
      | none => simp [Mem.Read, Prog.bind, loadNode, handleReadAt, hn, hr]
      | some o2 =>
        cases o2 with
        | readResponse r =>
          have hne : n ≠ resp := by
            intro e
            rw [e, hr] at hn
            cases hn
          cases hh : HandleRead req r c.Content with
          | ok out =>
            have h2 := HandleRead_again req r out c.Content hh
            simp [Mem.Read, Prog.bind, Prog.ret, loadNode, handleReadAt, hn, hr, hh, h2,
              Function.update, hne]
          | error e =>
            simp [Mem.Read, Prog.bind, loadNode, handleReadAt, hn, hr, hh]
          | panic =>
            simp [Mem.Read, Prog.bind, loadNode, handleReadAt, hn, hr, hh]
        | node _ => simp [Mem.Read, Prog.bind, loadNode, handleReadAt, hn, hr]
        | fs _ => simp [Mem.Read, Prog.bind, loadNode, handleReadAt, hn, hr]
        | attr _ => simp [Mem.Read, Prog.bind, loadNode, handleReadAt, hn, hr]
        | openResponse _ => simp [Mem.Read, Prog.bind, loadNode, handleReadAt, hn, hr]
    | fs _ => simp [Mem.Read, Prog.bind, loadNode, hn]
    | attr _ => simp [Mem.Read, Prog.bind, loadNode, hn]
    | openResponse _ => simp [Mem.Read, Prog.bind, loadNode, hn]
    | readResponse _ => simp [Mem.Read, Prog.bind, loadNode, hn]

/-- The record `Attr` returns is left as it is by a second `Attr` on the same
node. -/
theorem Attr_again (nd : Node) (r r2 : Attr) (h : nd.Attr r = .ok r2) :
    nd.Attr r2 = .ok r2 := by
  simp only [Node.Attr, Outcome.ok.injEq] at h ⊢
  subst h
  by_cases ht : nd.Typ = DirentType.DT_File
  · by_cases hi : nd.Inode = 0 <;> simp [ht, hi]
  · by_cases hi : r.Inode = 0 <;> simp [ht, hi]

/-- A second `Attr` right after the first, with the record as the first left
it, returns what the first returned and leaves the memory as the first left
it. -/
theorem memAttr_again (h : Heap) (n a : Nat) :
    Mem.Attr n a (Mem.Attr n a h).1 = Mem.Attr n a h := by
  cases ha : h a with
  | none => simp [Mem.Attr, Prog.bind, modifyAttr, ha]
  | some o =>
    cases o with
    | attr r =>
      cases hn : h n with
      | none =>
        have hne : n ≠ a := by
          intro e
          rw [e, ha] at hn
          cases hn
        simp [Mem.Attr, Prog.bind, modifyAttr, loadNode, ha, hn, Function.update, hne]
      | some o2 =>
        cases o2 with
        | node c =>
          obtain ⟨r2, h2, e1⟩ := memAttr_eq h n a c r hn ha
          have hne : n ≠ a := by
            intro e
            rw [e, ha] at hn
            cases hn
          obtain ⟨r3, h3, e2⟩ := memAttr_eq (Function.update h a (some (.attr r2))) n a c r2
            (by simp [Function.update, hne, hn]) (by simp)
          rw [Attr_again _ r r2 h2, Outcome.ok.injEq] at h3
          subst h3
          rw [e1]
          simp only []
          rw [e2]
          simp
        | attr _ =>
          by_cases hne : n = a <;>
            simp [Mem.Attr, Prog.bind, modifyAttr, loadNode, ha, hn, Function.update, hne]
        | fs _ =>
          by_cases hne : n = a <;>
            simp [Mem.Attr, Prog.bind, modifyAttr, loadNode, ha, hn, Function.update, hne]
        | openResponse _ =>
          by_cases hne : n = a <;>
            simp [Mem.Attr, Prog.bind, modifyAttr, loadNode, ha, hn, Function.update, hne]
        | readResponse _ =>
          by_cases hne : n = a <;>
            simp [Mem.Attr, Prog.bind, modifyAttr, loadNode, ha, hn, Function.update, hne]
    | node _ => simp [Mem.Attr, Prog.bind, modifyAttr, ha]
    | fs _ => simp [Mem.Attr, Prog.bind, modifyAttr, ha]
    | openResponse _ => simp [Mem.Attr, Prog.bind, modifyAttr, ha]
    | readResponse _ => simp [Mem.Attr, Prog.bind, modifyAttr, ha]

/-! ## The claims -/

/-- C1: for a dataset with pairwise distinct directory names and distinct file
names within each directory, the builder returns a tree in which `Lookup` on
the root with the name of a directory returns a node of type directory, and
`Lookup` on that node with the name of one of its files returns a node of type
file whose content is the bytes of the file of the dataset. -/
theorem lookup_round_trip (ds : List directory) (hd : distinctNames ds) :
    ∃ filesys root, buildTree ds = .ok filesys ∧ filesys.Root = .ok root ∧
      ∀ D ∈ ds, ∃ dn, root.Lookup D.name = .ok dn ∧ dn.Typ = DirentType.DT_Dir ∧
        ∀ F ∈ D.files, ∃ fn, dn.Lookup F.name = .ok fn ∧ fn.Typ = DirentType.DT_File ∧
          fn.Content = bytesOf F.content := by
  refine ⟨_, _, buildTree_eq ds, rfl, ?_⟩
  intro D hD
  obtain ⟨i, hi⟩ := exists_index_of_mem ds D hD
  refine ⟨dirNode i D, ?_, rfl, ?_⟩
  · simp [Node.Lookup, mapGet_nodesFrom ds hd.1 i D hi]
  · intro F hF
    refine ⟨fileNode i F, ?_, rfl, rfl⟩
    simp [Node.Lookup, dirNode, mapGet_childrenFrom i D.files (hd.2 D hD) F hF]

/-- The dataset `dirs` has distinct names, and the round trip holds on it. -/
theorem lookup_round_trip_dirs :
    distinctNames dirs ∧
    ∃ filesys root, buildTree dirs = .ok filesys ∧ filesys.Root = .ok root ∧
      ∀ D ∈ dirs, ∃ dn, root.Lookup D.name = .ok dn ∧ dn.Typ = DirentType.DT_Dir ∧
        ∀ F ∈ D.files, ∃ fn, dn.Lookup F.name = .ok fn ∧ fn.Typ = DirentType.DT_File ∧
          fn.Content = bytesOf F.content :=
  ⟨by decide, lookup_round_trip dirs (by decide)⟩

/-- C2: on a node whose child map is present, `Lookup` fails with `ENOENT`
exactly when no child is stored under the name, and returns the stored child
otherwise; in a tree of the builder the name of the child returned is the name
asked for, on the root and on a directory; `Lookup` of "doesNotExist" on the
root of the tree of `dirs` fails with `ENOENT`. -/
theorem lookup_not_found_iff :
    (∀ (n : Node) (f : FS) (name : String), n.fs = some f →
      (n.Lookup name = .error Errno.ENOENT ↔ mapGet f.Nodes name = none) ∧
      (∀ c, mapGet f.Nodes name = some c → n.Lookup name = .ok c)) ∧
    (∀ (ds : List directory), ∃ filesys root, buildTree ds = .ok filesys ∧
      filesys.Root = .ok root ∧
      ∀ (name : String) (c : Node), root.Lookup name = .ok c →
        c.Name = name ∧
        ∀ (name2 : String) (c2 : Node), c.Lookup name2 = .ok c2 → c2.Name = name2) ∧
    (∃ filesys root, buildTree dirs = .ok filesys ∧ filesys.Root = .ok root ∧
      root.Lookup "doesNotExist" = .error Errno.ENOENT) := by
  refine ⟨?_, ?_, ⟨_, _, rfl, rfl, rfl⟩⟩
  · intro n f name hf
    constructor
    · cases h : mapGet f.Nodes name <;> simp [Node.Lookup, hf, h]
    · intro c hc
      simp [Node.Lookup, hf, hc]
  · intro ds
    refine ⟨_, _, buildTree_eq ds, rfl, ?_⟩
    intro name c hc
    have hget : mapGet (nodesFrom [] 0 ds) name = some c := by
      cases h : mapGet (nodesFrom [] 0 ds) name with
      | none => simp [Node.Lookup, h] at hc
      | some v =>
        simp [Node.Lookup, h] at hc
        rw [hc]
    obtain ⟨h1, inner, h2, h3⟩ :=
      nodesFrom_keysAreNames ds [] 0 (fun kv hkv => by simp at hkv) _
        (mem_of_mapGet _ _ _ hget)
    have h2 : c.fs = some inner := h2
    refine ⟨h1, ?_⟩
    intro name2 c2 hc2
    have hget2 : mapGet inner.Nodes name2 = some c2 := by
      cases h : mapGet inner.Nodes name2 with
      | none => simp [Node.Lookup, h2, h] at hc2
      | some v =>
        simp [Node.Lookup, h2, h] at hc2
        rw [hc2]
    exact h3 _ (mem_of_mapGet _ _ _ hget2)

/-- On the root of the tree of `dirs`, a directory with three children, the
lookup of an absent name fails with `ENOENT` and no child is stored under it. -/
theorem lookup_not_found_iff_dirs :
    ((Node.mk (some { Nodes := nodesFrom [] 0 dirs }) 0 "" DirentType.DT_Unknown []).Lookup
        "doesNotExist" = .error Errno.ENOENT ↔
      mapGet (nodesFrom [] 0 dirs) "doesNotExist" = none) ∧
    mapGet (nodesFrom [] 0 dirs) "doesNotExist" = none :=
  ⟨(lookup_not_found_iff.1 _ { Nodes := nodesFrom [] 0 dirs } "doesNotExist" rfl).1, rfl⟩

/-- C3: for an offset and a maximal length that are not negative, and a
response buffer of capacity at least the maximal length, `Read` returns no
error and the bytes `c[offset : min(offset+maxLength, len(c))]` of the content
`c` when the offset is below `len(c)`, and no byte otherwise; a read of `len(c)`
bytes at 0 returns `c`, a read of 10 bytes at `len(c)` returns nothing, and a
read of 3 bytes at 5 returns `c[5:8]`. -/
theorem read_returns_window :
    (∀ (n : Node) (req : ReadRequest) (resp : ReadResponse), 0 ≤ req.Offset → 0 ≤ req.Size →
      req.Size.toNat ≤ resp.Cap →
      ∃ out, n.Read req resp = .ok out ∧
        out.Data =
          if req.Offset.toNat < n.Content.length then
            sliceOf n.Content req.Offset.toNat
              (min (req.Offset.toNat + req.Size.toNat) n.Content.length)
          else []) ∧
    (∀ (n : Node) (resp : ReadResponse), n.Content.length ≤ resp.Cap → ∃ out,
      n.Read { Offset := 0, Size := n.Content.length } resp = .ok out ∧
        out.Data = n.Content) ∧
    (∀ (n : Node) (resp : ReadResponse), 10 ≤ resp.Cap → ∃ out,
      n.Read { Offset := n.Content.length, Size := 10 } resp = .ok out ∧ out.Data = []) ∧
    (∀ (n : Node) (resp : ReadResponse), 3 ≤ resp.Cap → ∃ out,
      n.Read { Offset := 5, Size := 3 } resp = .ok out ∧ out.Data = sliceOf n.Content 5 8) := by
  refine ⟨?_, ?_, ?_, ?_⟩
  · intro n req resp hoff hsz hcap
    refine ⟨_, Read_data n req resp hoff hsz hcap, ?_⟩
    by_cases h : req.Offset.toNat < n.Content.length
    · rw [if_pos h]
      exact take_drop_window _ _ _ h
    · rw [if_neg h]
      show List.take _ (List.drop _ _) = []
      rw [List.drop_eq_nil_of_le (Nat.le_of_not_lt h)]
      exact List.take_nil
  · intro n resp hcap
    refine ⟨_, Read_data n { Offset := 0, Size := n.Content.length } resp (le_refl _)
      (Int.natCast_nonneg _) (by simpa using hcap), ?_⟩
    simp
  · intro n resp hcap
    refine ⟨_, Read_data n { Offset := n.Content.length, Size := 10 } resp
      (Int.natCast_nonneg _) (show (0 : Int) ≤ 10 by decide) (by simpa using hcap), ?_⟩
    simp
  · intro n resp hcap
    refine ⟨_, Read_data n { Offset := 5, Size := 3 } resp (by decide) (by decide)
      (by simpa using hcap), ?_⟩
    show List.take _ (List.drop _ _) = _
    simp only [sliceOf]
    rw [List.drop_take]
    rfl

/-- A read of 4 bytes at offset 2 of the six bytes 1 to 6, into a buffer of
capacity 4, returns 3, 4, 5, 6. -/
theorem read_returns_window_six :
    ∃ out, (Node.mk none 7 "f" DirentType.DT_File [1, 2, 3, 4, 5, 6]).Read
        { Offset := 2, Size := 4 } { Data := [], Cap := 4 } = .ok out ∧
      out.Data =
        if (2 : Int).toNat < [1, 2, 3, 4, 5, 6].length then
          sliceOf [1, 2, 3, 4, 5, 6] (2 : Int).toNat
            (min ((2 : Int).toNat + (4 : Int).toNat) [1, 2, 3, 4, 5, 6].length)
        else [] :=
  read_returns_window.1 (Node.mk none 7 "f" DirentType.DT_File [1, 2, 3, 4, 5, 6])
    { Offset := 2, Size := 4 } { Data := [], Cap := 4 } (by decide) (by decide) (by decide)

/-- C4: `Open` returns a handle exactly when the access mode of the request is
read-only, the handle is then the node itself, and for the write-only and the
read-write access modes (and any other mode that is not read-only) it returns
the error `EACCES`. -/
theorem open_read_only_iff (n : Node) (req : OpenRequest) (resp : OpenResponse) :
    ((∃ h, (n.Open req resp).2 = .ok h) ↔ req.Flags &&& O_ACCMODE = O_RDONLY) ∧
    (req.Flags &&& O_ACCMODE = O_RDONLY → (n.Open req resp).2 = .ok n) ∧
    (req.Flags &&& O_ACCMODE = O_WRONLY → (n.Open req resp).2 = .error Errno.EACCES) ∧
    (req.Flags &&& O_ACCMODE = O_RDWR → (n.Open req resp).2 = .error Errno.EACCES) ∧
    (req.Flags &&& O_ACCMODE ≠ O_RDONLY → (n.Open req resp).2 = .error Errno.EACCES) := by
  have hro : req.Flags &&& O_ACCMODE = O_RDONLY → (n.Open req resp).2 = .ok n := by
    intro h
    simp [Node.Open, OpenRequest.IsReadOnly, h]
  have hnro : req.Flags &&& O_ACCMODE ≠ O_RDONLY →
      (n.Open req resp).2 = .error Errno.EACCES := by
    intro h
    simp [Node.Open, OpenRequest.IsReadOnly, h]
  refine ⟨⟨?_, fun h => ⟨n, hro h⟩⟩, hro, ?_, ?_, hnro⟩
  · rintro ⟨h, hh⟩
    by_contra hc
    rw [hnro hc] at hh
    cases hh
  · intro h
    exact hnro (by rw [h]; decide)
  · intro h
    exact hnro (by rw [h]; decide)

/-- A request to open for writing only, with `O_APPEND` set, gets `EACCES`. -/
theorem open_read_only_iff_wronly :
    ((Node.mk none 7 "f" DirentType.DT_File []).Open { Flags := 1025 } { Flags := 0 }).2
      = .error Errno.EACCES :=
  (open_read_only_iff (Node.mk none 7 "f" DirentType.DT_File []) { Flags := 1025 }
    { Flags := 0 }).2.2.1 (by decide)

/-- C6: `Attr` on a zero attribute record returns no error and the size 0 for
a node that is not a file, and the length of the content for a file. -/
theorem attr_size (n : Node) :
    ∃ a, n.Attr Attr.zero = .ok a ∧
      a.Size = if n.Typ = DirentType.DT_File then n.Content.length else 0 := by
  refine ⟨_, rfl, ?_⟩
  by_cases h : n.Typ = DirentType.DT_File
  · by_cases h2 : n.Inode = 0 <;> simp [h, h2]
  · simp [h, Attr.zero]

/-- C7: `Attr` sets the mode `0444` on a file and `ModeDir|0555` on any other
node, the root included; the mode of a file has no execute bit and no directory
flag, the mode of another node has the directory flag, the read and the search
bits, and no mode has a write bit. -/
theorem attr_mode (n : Node) (a : Attr) :
    ∃ a2, n.Attr a = .ok a2 ∧
      a2.Mode = (if n.Typ = DirentType.DT_File then 0o444 else ModeDir ||| 0o555) ∧
      a2.Mode &&& 0o222 = 0 ∧
      (n.Typ = DirentType.DT_File → a2.Mode &&& 0o111 = 0 ∧ a2.Mode &&& ModeDir = 0) ∧
      (n.Typ ≠ DirentType.DT_File →
        a2.Mode &&& ModeDir = ModeDir ∧ a2.Mode &&& 0o555 = 0o555) ∧
      (∀ f : FS, FS.Root f = .ok n → a2.Mode = ModeDir ||| 0o555) := by
  obtain ⟨a2, h1, h2⟩ := attr_mode_eq n a
  refine ⟨a2, h1, h2, ?_⟩
  by_cases h : n.Typ = DirentType.DT_File
  · rw [if_pos h] at h2
    rw [h2]
    refine ⟨by decide, fun _ => ⟨by decide, by decide⟩, fun hc => absurd h hc, ?_⟩
    intro f hf
    simp only [FS.Root, Outcome.ok.injEq] at hf
    rw [← hf] at h
    cases h
  · rw [if_neg h] at h2
    rw [h2]
    exact ⟨by decide, fun hc => absurd hc h, fun _ => ⟨by decide, by decide⟩,
      fun _ _ => rfl⟩

/-- The mode of a file node and of the root of an empty filesystem. -/
theorem attr_mode_file :
    ∃ a2, (Node.mk none 7 "f" DirentType.DT_File []).Attr Attr.zero = .ok a2 ∧
      a2.Mode &&& 0o111 = 0 ∧ a2.Mode &&& ModeDir = 0 :=
  let ⟨a2, h1, _, _, h4, _⟩ := attr_mode (Node.mk none 7 "f" DirentType.DT_File []) Attr.zero
  ⟨a2, h1, h4 rfl⟩

/-- C5: for a dataset with pairwise distinct directory names and distinct file
names within each directory, `ReadDirAll` on the root returns without error, up
to order, one entry per directory of the dataset, of type directory and with
the name and the identifier of the node of that directory; `ReadDirAll` on the
node of a directory returns without error, up to order, one entry per file of
that directory, of type file and with the name and the identifier of the node
of that file. -/
theorem readdir_exact (ds : List directory) (hd : distinctNames ds) :
    ∃ filesys root es, buildTree ds = .ok filesys ∧ filesys.Root = .ok root ∧
      root.ReadDirAll = .ok es ∧
      es.Perm ((ds.enumFrom 0).map
        (fun p => { Inode := p.1, Name := p.2.name, Typ := DirentType.DT_Dir })) ∧
      ∀ p ∈ ds.enumFrom 0, ∃ dn fes, root.Lookup p.2.name = .ok dn ∧
        dn.Inode = p.1 ∧ dn.Name = p.2.name ∧ dn.Typ = DirentType.DT_Dir ∧
        dn.ReadDirAll = .ok fes ∧
        fes.Perm (p.2.files.map (fun F =>
          { Inode := GenerateDynamicInode p.1 F.name, Name := F.name,
            Typ := DirentType.DT_File })) ∧
        ∀ F ∈ p.2.files, ∃ fn, dn.Lookup F.name = .ok fn ∧
          fn.Inode = GenerateDynamicInode p.1 F.name ∧ fn.Name = F.name ∧
          fn.Typ = DirentType.DT_File := by
  refine ⟨_, _, _, buildTree_eq ds, rfl, rfl, ?_, ?_⟩
  · rw [nodesFrom_distinct ds [] 0 (by simpa using hd.1)]
    simp only [List.nil_append, List.map_map]
    exact List.Perm.of_eq rfl
  · rintro ⟨i, D⟩ hp
    have hD : D ∈ ds := List.snd_mem_of_mem_enumFrom hp
    have hfiles := hd.2 D hD
    refine ⟨dirNode i D, _, ?_, rfl, rfl, rfl, rfl, ?_, ?_⟩
    · simp [Node.Lookup, mapGet_nodesFrom ds hd.1 i D hp]
    · simp only [dirNode]
      rw [childrenFrom_distinct i D.files [] (by simpa using hfiles)]
      simp only [List.nil_append, List.map_map]
      exact List.Perm.of_eq rfl
    · intro F hF
      refine ⟨fileNode i F, ?_, rfl, rfl, rfl⟩
      simp [Node.Lookup, dirNode, mapGet_childrenFrom i D.files hfiles F hF]

/-- The listings of the tree of `dirs` are exact. -/
theorem readdir_exact_dirs :
    distinctNames dirs ∧
    ∃ filesys root es, buildTree dirs = .ok filesys ∧ filesys.Root = .ok root ∧
      root.ReadDirAll = .ok es ∧
      es.Perm ((dirs.enumFrom 0).map
        (fun p => { Inode := p.1, Name := p.2.name, Typ := DirentType.DT_Dir })) ∧
      ∀ p ∈ dirs.enumFrom 0, ∃ dn fes, root.Lookup p.2.name = .ok dn ∧
        dn.Inode = p.1 ∧ dn.Name = p.2.name ∧ dn.Typ = DirentType.DT_Dir ∧
        dn.ReadDirAll = .ok fes ∧
        fes.Perm (p.2.files.map (fun F =>
          { Inode := GenerateDynamicInode p.1 F.name, Name := F.name,
            Typ := DirentType.DT_File })) ∧
        ∀ F ∈ p.2.files, ∃ fn, dn.Lookup F.name = .ok fn ∧
          fn.Inode = GenerateDynamicInode p.1 F.name ∧ fn.Name = F.name ∧
          fn.Typ = DirentType.DT_File :=
  ⟨by decide, readdir_exact dirs (by decide)⟩

/-- C8: on the tree of `dirs`, the node of the directory "shards" has the
identifier 2, `ReadDirAll` on the root lists it with the identifier 2, and
`Attr` on a zero attribute record reports the identifier 1 for it. -/
theorem attr_inode_of_directory :
    ∃ filesys root dn es a, buildTree dirs = .ok filesys ∧ filesys.Root = .ok root ∧
      root.Lookup "shards" = .ok dn ∧ dn.Inode = 2 ∧ dn.Inode ≠ 0 ∧
      root.ReadDirAll = .ok es ∧
      { Inode := 2, Name := "shards", Typ := DirentType.DT_Dir } ∈ es ∧
      dn.Attr Attr.zero = .ok a ∧ a.Inode = 1 ∧ a.Inode ≠ dn.Inode :=
  ⟨_, _, _, _, _, rfl, rfl, rfl, rfl, by decide, rfl, by decide, rfl, rfl, by decide⟩

/-- C9, as stated, fails: on the tree of `dirs`, the node of the file
"file1.txt" of the directory "cat" is of type file and has a `nil` pointer
`fs`, and `Lookup` of "x" on it panics: it does not return `ENOENT`. -/
theorem lookup_on_file_panics :
    ∃ filesys root dn fn, buildTree dirs = .ok filesys ∧ filesys.Root = .ok root ∧
      root.Lookup "cat" = .ok dn ∧ dn.Lookup "file1.txt" = .ok fn ∧
      fn.Typ = DirentType.DT_File ∧ fn.fs = none ∧
      fn.Lookup "x" = .panic ∧ fn.Lookup "x" ≠ .error Errno.ENOENT :=
  ⟨_, _, _, _, rfl, rfl, rfl, rfl, rfl, rfl, rfl, fun h => by
    have h2 : (Outcome.panic : Outcome Node) = .error Errno.ENOENT := h
    cases h2⟩

/-- C9, amended: in the tree built from any dataset, a file node has no child
map, its pointer `fs` being `nil`, and `Lookup` on it returns neither a node nor
`ENOENT`, for any name: the call panics. On a directory node `Lookup` returns
a node or `ENOENT`. -/
theorem lookup_on_file_no_node (ds : List directory) :
    ∃ filesys, buildTree ds = .ok filesys ∧
      ∀ n ∈ storedNodes filesys,
        (n.Typ = DirentType.DT_File → n.fs = none ∧
          ∀ name : String, n.Lookup name = .panic ∧
            n.Lookup name ≠ .error Errno.ENOENT ∧ ∀ c, n.Lookup name ≠ .ok c) ∧
        (n.Typ = DirentType.DT_Dir → ∀ name : String,
          (∃ c, n.Lookup name = .ok c) ∨ n.Lookup name = .error Errno.ENOENT) := by
  refine ⟨_, buildTree_eq ds, ?_⟩
  intro n hn
  rcases stored_kinds ds n hn with ⟨ht, hfs⟩ | ⟨ht, inner, hfs⟩
  · refine ⟨fun _ => ⟨hfs, fun name => ?_⟩, fun hd => ?_⟩
    · have hp : n.Lookup name = .panic := by simp [Node.Lookup, hfs]
      rw [hp]
      exact ⟨rfl, (fun h => by cases h), (fun c h => by cases h)⟩
    · rw [ht] at hd
      cases hd
  · refine ⟨fun hf => ?_, fun _ name => ?_⟩
    · rw [ht] at hf
      cases hf
    · cases hget : mapGet inner.Nodes name with
      | none => exact Or.inr (by simp [Node.Lookup, hfs, hget])
      | some c => exact Or.inl ⟨c, by simp [Node.Lookup, hfs, hget]⟩

/-- On the tree of `dirs`, `Lookup` of "x" on the node of the file "file1.txt"
panics and returns no node. -/
theorem lookup_on_file_no_node_dirs :
    ∃ filesys, buildTree dirs = .ok filesys ∧
      (fileNode 0 ⟨"file1.txt", "This is file 1 + some random stuff..."⟩).Lookup "x"
        = .panic ∧
      ∀ c, (fileNode 0 ⟨"file1.txt", "This is file 1 + some random stuff..."⟩).Lookup "x"
        ≠ .ok c := by
  obtain ⟨filesys, hb, hall⟩ := lookup_on_file_no_node dirs
  obtain rfl := Outcome.ok.inj ((buildTree_eq dirs).symm.trans hb)
  have hmem : fileNode 0 ⟨"file1.txt", "This is file 1 + some random stuff..."⟩ ∈
      storedNodes { Nodes := nodesFrom [] 0 dirs } :=
    List.mem_flatMap.2 ⟨_, List.mem_cons_self _ _,
      List.mem_cons_of_mem _ (List.mem_cons_self _ _)⟩
  have h := ((hall _ hmem).1 rfl).2 "x"
  exact ⟨_, hb, h.1, h.2.2⟩

/-- C10, as stated, fails: on the tree of `dirs`, `ReadDirAll` on the node of
the file "file1.txt" of the directory "cat" panics: it does not return an
empty listing. -/
theorem readdir_on_file_panics :
    ∃ filesys root dn fn, buildTree dirs = .ok filesys ∧ filesys.Root = .ok root ∧
      root.Lookup "cat" = .ok dn ∧ dn.Lookup "file1.txt" = .ok fn ∧
      fn.Typ = DirentType.DT_File ∧ fn.ReadDirAll = .panic ∧ fn.ReadDirAll ≠ .ok [] :=
  ⟨_, _, _, _, rfl, rfl, rfl, rfl, rfl, rfl, fun h => by
    have h2 : (Outcome.panic : Outcome (List Dirent)) = .ok [] := h
    cases h2⟩

/-- C10, amended: in the tree built from any dataset, `ReadDirAll` on a file
node returns no listing, empty or not: the call panics, the pointer `fs` of the
node being `nil`. On a directory node `ReadDirAll` returns a listing and no
error. -/
theorem readdir_on_file_no_listing (ds : List directory) :
    ∃ filesys, buildTree ds = .ok filesys ∧
      ∀ n ∈ storedNodes filesys,
        (n.Typ = DirentType.DT_File →
          n.ReadDirAll = .panic ∧ ∀ es, n.ReadDirAll ≠ .ok es) ∧
        (n.Typ = DirentType.DT_Dir → ∃ es, n.ReadDirAll = .ok es) := by
  refine ⟨_, buildTree_eq ds, ?_⟩
  intro n hn
  rcases stored_kinds ds n hn with ⟨ht, hfs⟩ | ⟨ht, inner, hfs⟩
  · refine ⟨fun _ => ?_, fun hd => ?_⟩
    · have hp : n.ReadDirAll = .panic := by simp [Node.ReadDirAll, hfs]
      rw [hp]
      exact ⟨rfl, fun es h => by cases h⟩
    · rw [ht] at hd
      cases hd
  · refine ⟨fun hf => ?_, fun _ =>
      ⟨inner.Nodes.map (fun kv => { Inode := kv.2.Inode, Name := kv.2.Name, Typ := kv.2.Typ }),
        by simp [Node.ReadDirAll, hfs]⟩⟩
    rw [ht] at hf
    cases hf

/-- On the tree of `dirs`, `ReadDirAll` on the node of the file "file1.txt"
panics and returns no listing. -/
theorem readdir_on_file_no_listing_dirs :
    ∃ filesys, buildTree dirs = .ok filesys ∧
      (fileNode 0 ⟨"file1.txt", "This is file 1 + some random stuff..."⟩).ReadDirAll
        = .panic ∧
      ∀ es, (fileNode 0 ⟨"file1.txt", "This is file 1 + some random stuff..."⟩).ReadDirAll
        ≠ .ok es := by
  obtain ⟨filesys, hb, hall⟩ := readdir_on_file_no_listing dirs
  obtain rfl := Outcome.ok.inj ((buildTree_eq dirs).symm.trans hb)
  have hmem : fileNode 0 ⟨"file1.txt", "This is file 1 + some random stuff..."⟩ ∈
      storedNodes { Nodes := nodesFrom [] 0 dirs } :=
    List.mem_flatMap.2 ⟨_, List.mem_cons_self _ _,
      List.mem_cons_of_mem _ (List.mem_cons_self _ _)⟩
  have h := (hall _ hmem).1 rfl
  exact ⟨_, hb, h.1, h.2⟩

/-- C11, as stated, fails: a read of 4 bytes at the offset -3 of a file of six
bytes, into a buffer of capacity 4, panics; it does not return what the read
at the offset 0 returns. -/
theorem read_negative_offset_panics :
    (Node.mk none 7 "f" DirentType.DT_File [1, 2, 3, 4, 5, 6]).Read
        { Offset := -3, Size := 4 } { Data := [], Cap := 4 } = .panic ∧
    (Node.mk none 7 "f" DirentType.DT_File [1, 2, 3, 4, 5, 6]).Read
        { Offset := 0, Size := 4 } { Data := [], Cap := 4 }
      = .ok { Data := [1, 2, 3, 4], Cap := 4 } :=
  ⟨rfl, rfl⟩

/-- C11, amended: for a maximal length that is not negative and a response
buffer of capacity at least the maximal length, `Read` returns without error
and without panic for every offset that is not negative, those beyond the end
included; with an offset at or beyond the end it returns what it returns with
the offset `len(c)`, which is no byte. A negative offset is not clamped: the
call panics. -/
theorem read_offset_beyond_end (n : Node) (req : ReadRequest) (resp : ReadResponse)
    (hsz : 0 ≤ req.Size) (hcap : req.Size.toNat ≤ resp.Cap) :
    (0 ≤ req.Offset → ∃ out, n.Read req resp = .ok out ∧
      ((n.Content.length : Int) ≤ req.Offset →
        n.Read { req with Offset := n.Content.length } resp = .ok out ∧ out.Data = [])) ∧
    (req.Offset < 0 → n.Read req resp = .panic) := by
  constructor
  · intro hoff
    refine ⟨_, Read_data n req resp hoff hsz hcap, ?_⟩
    intro hlen
    have h1 : n.Content.length ≤ req.Offset.toNat := by omega
    constructor
    · rw [Read_data n { req with Offset := n.Content.length } resp (Int.natCast_nonneg _)
        hsz hcap]
      simp [List.drop_eq_nil_of_le h1]
    · show List.take _ (List.drop _ _) = []
      rw [List.drop_eq_nil_of_le h1]
      exact List.take_nil
  · intro hneg
    have h1 : ¬ ((n.Content.length : Int) ≤ req.Offset) := by omega
    simp [Node.Read, HandleRead, Outcome.bind, h1, hneg]

/-- A read of 4 bytes at the offset 9 of a file of six bytes, into a buffer
of capacity 4, returns no byte, and the same read at the offset -3 panics. -/
theorem read_offset_beyond_end_six :
    (∃ out, (Node.mk none 7 "f" DirentType.DT_File [1, 2, 3, 4, 5, 6]).Read
        { Offset := 9, Size := 4 } { Data := [], Cap := 4 } = .ok out ∧ out.Data = []) ∧
    (Node.mk none 7 "f" DirentType.DT_File [1, 2, 3, 4, 5, 6]).Read
        { Offset := -3, Size := 4 } { Data := [], Cap := 4 } = .panic := by
  constructor
  · obtain ⟨out, h1, h2⟩ :=
      (read_offset_beyond_end (Node.mk none 7 "f" DirentType.DT_File [1, 2, 3, 4, 5, 6])
        { Offset := 9, Size := 4 } { Data := [], Cap := 4 } (by decide) (by decide)).1
        (by decide)
    exact ⟨out, h1, (h2 (by decide)).2⟩
  · exact (read_offset_beyond_end (Node.mk none 7 "f" DirentType.DT_File [1, 2, 3, 4, 5, 6])
      { Offset := -3, Size := 4 } { Data := [], Cap := 4 } (by decide) (by decide)).2
      (by decide)

/-- C14, as stated, fails: on the tree of `dirs` the lookups of "cat" and of
"file1.txt" succeed, and no attribute record that `Attr` returns for that file
has the size 38. -/
theorem scenario_size_not_38 :
    ¬ ∃ filesys root dn fn a, buildTree dirs = .ok filesys ∧ filesys.Root = .ok root ∧
      root.Lookup "cat" = .ok dn ∧ dn.Lookup "file1.txt" = .ok fn ∧
      fn.Attr Attr.zero = .ok a ∧ a.Size = 38 := by
  rintro ⟨filesys, root, dn, fn, a, h1, h2, h3, h4, h5, h6⟩
  obtain rfl := Outcome.ok.inj ((buildTree_eq dirs).symm.trans h1)
  obtain rfl := Outcome.ok.inj h2
  obtain rfl := Outcome.ok.inj (h3 : Outcome.ok _ = Outcome.ok dn)
  obtain rfl := Outcome.ok.inj (h4 : Outcome.ok _ = Outcome.ok fn)
  obtain rfl := Outcome.ok.inj (h5 : Outcome.ok _ = Outcome.ok a)
  revert h6
  decide

/-- C14, amended: on the tree of `dirs`, `Root` succeeds, `Lookup` of "cat" on
the root returns a node of type directory, `Lookup` of "file1.txt" on it
returns a node of type file whose content is the bytes of "This is file 1 +
some random stuff...", and `Attr` on that node reports the size 37. -/
theorem scenario_size_37 :
    ∃ filesys root dn fn a, buildTree dirs = .ok filesys ∧ filesys.Root = .ok root ∧
      root.Lookup "cat" = .ok dn ∧ dn.Typ = DirentType.DT_Dir ∧
      dn.Lookup "file1.txt" = .ok fn ∧ fn.Typ = DirentType.DT_File ∧
      fn.Content = bytesOf "This is file 1 + some random stuff..." ∧
      fn.Attr Attr.zero = .ok a ∧ a.Size = 37 :=
  ⟨_, _, _, _, _, rfl, rfl, rfl, rfl, rfl, rfl, rfl, rfl, by decide⟩

/-- C17: for a read-only request `Open` sets the bit `OpenDirectIO` of the
flags of the response and leaves every other bit as it was (the flags stay
within 32 bits); for any other request the response is left as it was. -/
theorem open_direct_io_frame (n : Node) (req : OpenRequest) (resp : OpenResponse) :
    (req.Flags &&& O_ACCMODE = O_RDONLY →
      (n.Open req resp).1.Flags = resp.Flags ||| OpenDirectIO ∧
      (n.Open req resp).1.Flags.testBit 0 = true ∧
      (∀ k : Nat, k ≠ 0 → (n.Open req resp).1.Flags.testBit k = resp.Flags.testBit k) ∧
      (resp.Flags < 2 ^ 32 → (n.Open req resp).1.Flags < 2 ^ 32)) ∧
    (req.Flags &&& O_ACCMODE ≠ O_RDONLY → (n.Open req resp).1 = resp) := by
  constructor
  · intro h
    have e : (n.Open req resp).1.Flags = resp.Flags ||| OpenDirectIO := by
      simp [Node.Open, OpenRequest.IsReadOnly, h]
    rw [e]
    refine ⟨rfl, ?_, ?_, ?_⟩
    · simp [ OpenDirectIO, Nat.testBit_or]
    · intro k hk
      have h1 : Nat.testBit 1 k = false := by
        cases hb : Nat.testBit 1 k with
        | false => rfl
        | true => exact absurd (Nat.testBit_one_eq_true_iff_self_eq_zero.1 hb) hk
      simp [ OpenDirectIO, Nat.testBit_or, h1]
    · intro hlt
      exact Nat.or_lt_two_pow hlt (by decide)
  · intro h
    simp [Node.Open, OpenRequest.IsReadOnly, h]

/-- A read-only request with the response flags 6 gets the flags 7, and a
request to write gets the flags 6 back. -/
theorem open_direct_io_frame_six :
    ((Node.mk none 7 "f" DirentType.DT_File []).Open { Flags := 0 } { Flags := 6 }).1.Flags
      = 6 ||| OpenDirectIO ∧
    ((Node.mk none 7 "f" DirentType.DT_File []).Open { Flags := 1 } { Flags := 6 }).1
      = { Flags := 6 } :=
  ⟨((open_direct_io_frame (Node.mk none 7 "f" DirentType.DT_File []) { Flags := 0 }
      { Flags := 6 }).1 (by decide)).1,
   (open_direct_io_frame (Node.mk none 7 "f" DirentType.DT_File []) { Flags := 1 }
      { Flags := 6 }).2 (by decide)⟩

/-- C18: on the tree of `dirs`, the nodes of the directories "cat", built with
the identifier 0, and "indices", built with the identifier 1, are distinct, and
`Attr` on a zero attribute record reports the identifier 1 for both. -/
theorem attr_inode_collides :
    ∃ filesys root dn1 dn2 a1 a2, buildTree dirs = .ok filesys ∧
      filesys.Root = .ok root ∧
      root.Lookup "cat" = .ok dn1 ∧ root.Lookup "indices" = .ok dn2 ∧
      dn1.Inode = 0 ∧ dn2.Inode = 1 ∧ dn1.Name ≠ dn2.Name ∧
      dn1.Attr Attr.zero = .ok a1 ∧ dn2.Attr Attr.zero = .ok a2 ∧
      a1.Inode = 1 ∧ a2.Inode = 1 :=
  ⟨_, _, _, _, _, _, rfl, rfl, rfl, rfl, rfl, rfl, by decide, rfl, rfl, rfl, rfl⟩

/-- C12: in the tree built from `dirs` the 18 stored nodes, 3 directories with
their position as identifier and 15 files with the identifier
`GenerateDynamicInode` computes from the position of their directory and their
name, have pairwise distinct identifiers; the identifier of a directory is 0, 1
or 2, that of a file is above 2, and no file needed a second round of hashing. -/
theorem identifiers_unique :
    ∃ filesys, buildTree dirs = .ok filesys ∧
      (storedNodes filesys).length = 18 ∧
      (storedNodes filesys).map (fun n => n.Inode) =
        (dirs.enumFrom 0).flatMap (fun p =>
          p.1 :: p.2.files.map (fun f => GenerateDynamicInode p.1 f.name)) ∧
      ((storedNodes filesys).map (fun n => n.Inode)).Nodup ∧
      (∀ n ∈ storedNodes filesys, n.Typ = DirentType.DT_Dir → n.Inode < 3) ∧
      (∀ n ∈ storedNodes filesys, n.Typ = DirentType.DT_File → 2 < n.Inode) ∧
      (∀ n ∈ storedNodes filesys,
        n.Typ = DirentType.DT_Dir ∨ n.Typ = DirentType.DT_File) ∧
      (∀ p ∈ dirs.enumFrom 0, ∀ f ∈ p.2.files,
        1 < fnv1aWrite (fnv1aWrite 14695981039346656037 (littleEndian64 p.1))
          (bytesOf f.name)) :=
  ⟨_, rfl, by decide, rfl, by decide, by decide, by decide, by decide, by decide⟩

/-- C13, as stated, fails: in the tree built from `dirs` the node of the
directory "cat" is assigned the identifier 0, and the listing of the root has
an entry with the identifier 0. -/
theorem inode_zero_assigned :
    ∃ filesys root dn es, buildTree dirs = .ok filesys ∧ filesys.Root = .ok root ∧
      dirs ≠ [] ∧ root.Lookup "cat" = .ok dn ∧ dn ∈ storedNodes filesys ∧ dn.Inode = 0 ∧
      root.ReadDirAll = .ok es ∧
      { Inode := 0, Name := "cat", Typ := DirentType.DT_Dir } ∈ es :=
  ⟨_, _, _, _, rfl, rfl, by decide, rfl, List.mem_flatMap.2 ⟨_, List.mem_cons_self _ _,
    List.mem_cons_self _ _⟩, rfl, rfl, by decide⟩

/-- C13, amended: in the tree built from any dataset, no file node is assigned
the identifier 0, a stored node has the identifier 0 only if it is the node of
the directory at position 0 of the dataset, an entry of the listing of the
root carries the identifier 0 only if it is the entry of that directory, and
no entry of the listing of a directory carries the identifier 0. -/
theorem inode_zero_only_first_directory (ds : List directory) :
    ∃ filesys root es, buildTree ds = .ok filesys ∧ filesys.Root = .ok root ∧
      root.ReadDirAll = .ok es ∧
      (∀ n ∈ storedNodes filesys,
        (n.Typ = DirentType.DT_File → n.Inode ≠ 0) ∧
        (n.Inode = 0 → n.Typ = DirentType.DT_Dir ∧
          ∃ d, (0, d) ∈ ds.enumFrom 0 ∧ n.Name = d.name)) ∧
      (∀ e ∈ es, e.Inode = 0 → e.Typ = DirentType.DT_Dir ∧
        ∃ d, (0, d) ∈ ds.enumFrom 0 ∧ e.Name = d.name) ∧
      (∀ (name : String) (dn : Node) (fes : List Dirent), root.Lookup name = .ok dn →
        dn.ReadDirAll = .ok fes → ∀ e ∈ fes, e.Inode ≠ 0) := by
  have hstored : ∀ n ∈ storedNodes { Nodes := nodesFrom [] 0 ds },
      (n.Typ = DirentType.DT_File → n.Inode ≠ 0) ∧
      (n.Inode = 0 → n.Typ = DirentType.DT_Dir ∧
        ∃ d, (0, d) ∈ ds.enumFrom 0 ∧ n.Name = d.name) := by
    intro n hn
    obtain ⟨p, hp, h | ⟨f, _, h⟩⟩ := mem_storedNodes_build ds n hn
    · subst h
      obtain ⟨i, d⟩ := p
      refine ⟨fun h => by simp [dirNode] at h, fun h0 => ⟨rfl, d, ?_, rfl⟩⟩
      have h1 : i = 0 := h0
      subst h1
      exact hp
    · subst h
      exact ⟨fun _ => GenerateDynamicInode_ne_zero _ _,
        fun h0 => absurd h0 (GenerateDynamicInode_ne_zero p.1 f.name)⟩
  refine ⟨_, _, _, buildTree_eq ds, rfl, rfl, hstored, ?_, ?_⟩
  · intro e he h0
    obtain ⟨kv, hkv, rfl⟩ := List.mem_map.1 he
    have hn : kv.2 ∈ storedNodes { Nodes := nodesFrom [] 0 ds } :=
      List.mem_flatMap.2 ⟨kv, hkv, List.mem_cons_self _ _⟩
    exact (hstored kv.2 hn).2 h0
  · intro name dn fes hdn hfes e he
    have hget : mapGet (nodesFrom [] 0 ds) name = some dn := by
      cases h : mapGet (nodesFrom [] 0 ds) name with
      | none => simp [Node.Lookup, FS.Root, h] at hdn
      | some v =>
        simp [Node.Lookup, FS.Root, h] at hdn
        rw [hdn]
    have hmem := mem_of_mapGet _ _ _ hget
    cases hfs : dn.fs with
    | none => simp [Node.ReadDirAll, hfs] at hfes
    | some inner =>
      simp only [Node.ReadDirAll, hfs, Outcome.ok.injEq] at hfes
      subst hfes
      obtain ⟨c, hc, rfl⟩ := List.mem_map.1 he
      have hn : c.2 ∈ storedNodes { Nodes := nodesFrom [] 0 ds } := by
        refine List.mem_flatMap.2 ⟨(name, dn), hmem, List.mem_cons_of_mem _ ?_⟩
        simp only [hfs]
        exact List.mem_map.2 ⟨c, hc, rfl⟩
      obtain ⟨p, hp, h | ⟨f, _, h⟩⟩ := mem_storedNodes_build ds c.2 hn
      · -- a child of a directory is never the node of a directory
        exfalso
        have hq := nodesFrom_forall
          (fun kv => ∀ inner : FS, kv.2.fs = some inner →
            ∀ c ∈ inner.Nodes, c.2.Typ = DirentType.DT_File) ds [] 0
          (fun kv h => by simp at h)
          (fun q _ inner hi c hc => by
            simp only [dirNode, Option.some.injEq] at hi
            subst hi
            exact childrenFrom_forall (fun kv => kv.2.Typ = DirentType.DT_File) q.1
              q.2.files [] (fun kv h => by simp at h) (fun f _ => rfl) c hc)
          (name, dn) hmem inner hfs c hc
        rw [h] at hq
        simp [dirNode] at hq
      · show c.2.Inode ≠ 0
        rw [h]
        exact GenerateDynamicInode_ne_zero _ _

/-- In the tree of `dirs`, the entries of the listing of the root with the
identifier 0 are of type directory and carry the name of the first directory. -/
theorem inode_zero_only_first_directory_dirs :
    ∃ filesys root es, buildTree dirs = .ok filesys ∧ filesys.Root = .ok root ∧
      root.ReadDirAll = .ok es ∧
      (∀ n ∈ storedNodes filesys,
        (n.Typ = DirentType.DT_File → n.Inode ≠ 0) ∧
        (n.Inode = 0 → n.Typ = DirentType.DT_Dir ∧
          ∃ d, (0, d) ∈ dirs.enumFrom 0 ∧ n.Name = d.name)) ∧
      (∀ e ∈ es, e.Inode = 0 → e.Typ = DirentType.DT_Dir ∧
        ∃ d, (0, d) ∈ dirs.enumFrom 0 ∧ e.Name = d.name) ∧
      (∀ (name : String) (dn : Node) (fes : List Dirent), root.Lookup name = .ok dn →
        dn.ReadDirAll = .ok fes → ∀ e ∈ fes, e.Inode ≠ 0) :=
  inode_zero_only_first_directory dirs

/-- C15: with the handlers run as programs on a memory that holds the nodes,
the structs `FS` and the records handed to the handlers, `Lookup` and
`ReadDirAll` leave the whole memory as it is, and `Attr`, `Open` and `Read`
change it at most at the address of the record they are handed, so the
filesystem tree (every node with its fields and every child map) is the same
after the call. A second identical `Lookup`, `Read` or `Attr` right after the
first returns what the first returned and leaves the memory as the first left
it, and so does a second `Read` or `Attr` that starts from the record the
first started from. -/
theorem handlers_keep_tree (h : Heap) :
    (∀ (n : Nat) (name : String), (Mem.Lookup n name h).1 = h) ∧
    (∀ n : Nat, (Mem.ReadDirAll n h).1 = h) ∧
    (∀ n a : Nat, treePart (Mem.Attr n a h).1 = treePart h ∧
      ∀ addr : Nat, addr ≠ a → (Mem.Attr n a h).1 addr = h addr) ∧
    (∀ (n : Nat) (req : OpenRequest) (resp : Nat),
      treePart (Mem.Open n req resp h).1 = treePart h ∧
      ∀ addr : Nat, addr ≠ resp → (Mem.Open n req resp h).1 addr = h addr) ∧
    (∀ (n : Nat) (req : ReadRequest) (resp : Nat),
      treePart (Mem.Read n req resp h).1 = treePart h ∧
      ∀ addr : Nat, addr ≠ resp → (Mem.Read n req resp h).1 addr = h addr) ∧
    (∀ (n : Nat) (name : String),
      Mem.Lookup n name (Mem.Lookup n name h).1 = Mem.Lookup n name h) ∧
    (∀ (n : Nat) (req : ReadRequest) (resp : Nat),
      Mem.Read n req resp (Function.update (Mem.Read n req resp h).1 resp (h resp)) =
        Mem.Read n req resp h) ∧
    (∀ n a : Nat,
      Mem.Attr n a (Function.update (Mem.Attr n a h).1 a (h a)) = Mem.Attr n a h) ∧
    (∀ (n : Nat) (req : ReadRequest) (resp : Nat),
      Mem.Read n req resp (Mem.Read n req resp h).1 = Mem.Read n req resp h) ∧
    (∀ n a : Nat, Mem.Attr n a (Mem.Attr n a h).1 = Mem.Attr n a h) := by
  have hoff : ∀ {α : Type} {w : Nat} {x : Prog α}, x.Keeps w →
      ∀ addr : Nat, addr ≠ w → (x h).1 addr = h addr := by
    intro α w x hx addr hne
    rcases hx h addr with e | ⟨ea, _, _⟩
    · exact e
    · exact absurd ea hne
  refine ⟨fun n name => readOnly_Lookup n name h, fun n => readOnly_ReadDirAll n h,
    fun n a => ⟨treePart_of_keeps (keeps_Attr n a) h, hoff (keeps_Attr n a)⟩,
    fun n req resp => ⟨treePart_of_keeps (keeps_Open n req resp) h,
      hoff (keeps_Open n req resp)⟩,
    fun n req resp => ⟨treePart_of_keeps (keeps_Read n req resp) h,
      hoff (keeps_Read n req resp)⟩, ?_, ?_, ?_, fun n req resp => memRead_again h n resp req,
    fun n a => memAttr_again h n a⟩
  · intro n name
    rw [readOnly_Lookup n name h]
  · intro n req resp
    rw [reset_of_keeps (keeps_Read n req resp) h]
  · intro n a
    rw [reset_of_keeps (keeps_Attr n a) h]

/-- On the sample memory: `Attr` on the file at 4 fills the record at 10 with
the identifier of the file, the mode `0444` and the size 37, and leaves the
node at 4 and the address 11 as they were; a read of 5 bytes at the offset 8
fills the response at 12 with the bytes of "file " and leaves the node at 4 as
it was; the two lookups find the addresses 2 and 4. -/
theorem handlers_keep_tree_sample :
    (Mem.Lookup 0 "cat" sampleHeap).2 = .ok 2 ∧
    (Mem.Lookup 2 "file1.txt" sampleHeap).2 = .ok 4 ∧
    (Mem.Attr 4 10 sampleHeap).1 10 =
      some (.attr { Attr.zero with Inode := GenerateDynamicInode 0 "file1.txt",
                                   Mode := 0o444, Size := 37 }) ∧
    (Mem.Attr 4 10 sampleHeap).1 4 = sampleHeap 4 ∧
    (Mem.Attr 4 10 sampleHeap).1 11 = sampleHeap 11 ∧
    treePart (Mem.Attr 4 10 sampleHeap).1 = treePart sampleHeap ∧
    (Mem.Read 4 ⟨8, 5⟩ 12 sampleHeap).1 12 =
      some (.readResponse ⟨bytesOf "file ", 64⟩) ∧
    (Mem.Read 4 ⟨8, 5⟩ 12 sampleHeap).1 4 = sampleHeap 4 :=
  ⟨rfl, rfl, rfl, ((handlers_keep_tree sampleHeap).2.2.1 4 10).2 4 (by decide),
    ((handlers_keep_tree sampleHeap).2.2.1 4 10).2 11 (by decide),
    ((handlers_keep_tree sampleHeap).2.2.1 4 10).1, rfl,
    ((handlers_keep_tree sampleHeap).2.2.2.2.1 4 ⟨8, 5⟩ 12).2 4 (by decide)⟩

/-- C16: for a dataset with pairwise distinct directory names, the node found
under the name of the directory at position `i` has the identifier `i`, and
the node found in it under the name of one of its files has the identifier
`GenerateDynamicInode i name`. -/
theorem directory_identifiers_sequential (ds : List directory)
    (hn : (ds.map (fun d => d.name)).Nodup) :
    ∃ filesys root, buildTree ds = .ok filesys ∧ filesys.Root = .ok root ∧
      ∀ p ∈ ds.enumFrom 0, ∃ dn, root.Lookup p.2.name = .ok dn ∧ dn.Inode = p.1 ∧
        ∀ F ∈ p.2.files, ∃ fn, dn.Lookup F.name = .ok fn ∧
          fn.Inode = GenerateDynamicInode p.1 F.name := by
  refine ⟨_, _, buildTree_eq ds, rfl, ?_⟩
  rintro ⟨i, D⟩ hp
  refine ⟨dirNode i D, ?_, rfl, ?_⟩
  · simp [Node.Lookup, mapGet_nodesFrom ds hn i D hp]
  · intro F hF
    obtain ⟨G, _, hG, hget⟩ := mapGet_childrenFrom_some i D.files [] F hF
    refine ⟨fileNode i G, ?_, ?_⟩
    · simp [Node.Lookup, dirNode, hget]
    · simp [fileNode, hG]

/-- In the tree of `dirs`, "cat" has the identifier 0, "indices" 1 and
"shards" 2. -/
theorem directory_identifiers_sequential_dirs :
    ∃ filesys root, buildTree dirs = .ok filesys ∧ filesys.Root = .ok root ∧
      (∃ dn, root.Lookup "cat" = .ok dn ∧ dn.Inode = 0) ∧
      (∃ dn, root.Lookup "indices" = .ok dn ∧ dn.Inode = 1) ∧
      (∃ dn, root.Lookup "shards" = .ok dn ∧ dn.Inode = 2) :=
  let ⟨filesys, root, h1, h2, h3⟩ := directory_identifiers_sequential dirs (by decide)
  ⟨filesys, root, h1, h2,
    (let ⟨dn, h, e, _⟩ := h3 (0, dirs.get ⟨0, by decide⟩) (by decide); ⟨dn, h, e⟩),
    (let ⟨dn, h, e, _⟩ := h3 (1, dirs.get ⟨1, by decide⟩) (by decide); ⟨dn, h, e⟩),
    (let ⟨dn, h, e, _⟩ := h3 (2, dirs.get ⟨2, by decide⟩) (by decide); ⟨dn, h, e⟩)⟩

/-- C19: the builder returns without error on a dataset with repeated names.
When the directories at positions `i < j` share a name that no later directory
has, the listing of the root has one entry of that name, the node found under
it has the identifier `j`, its children are the files of the directory at
position `j`, and a file of the directory at position `i` whose name is not
one of them is not found by `Lookup` and not listed. When the files at
positions `p < q` of such a directory share a name that no later file has, the
node found under it has the content of the file at position `q`, and the
listing has one entry of that name. -/
theorem duplicate_names_last_wins :
    (∀ (ds : List directory) (i j : Nat) (Di Dj : directory), i < j →
      ds[i]? = some Di → ds[j]? = some Dj → Di.name = Dj.name →
      (∀ (k : Nat) (D2 : directory), j < k → ds[k]? = some D2 → D2.name ≠ Dj.name) →
      ∃ filesys root es dn fes, buildTree ds = .ok filesys ∧ filesys.Root = .ok root ∧
        root.ReadDirAll = .ok es ∧ (es.map (fun e => e.Name)).count Dj.name = 1 ∧
        root.Lookup Di.name = .ok dn ∧ root.Lookup Dj.name = .ok dn ∧
        dn.Inode = j ∧ dn.ReadDirAll = .ok fes ∧
        (∀ name : String,
          name ∈ fes.map (fun e => e.Name) ↔ name ∈ Dj.files.map (fun f => f.name)) ∧
        (∀ name : String,
          (∃ c, dn.Lookup name = .ok c) ↔ name ∈ Dj.files.map (fun f => f.name)) ∧
        (∀ (name : String) (c : Node), dn.Lookup name = .ok c →
          ∃ F ∈ Dj.files, F.name = name ∧ c.Content = bytesOf F.content ∧
            c.Inode = GenerateDynamicInode j name) ∧
        (∀ F ∈ Di.files, F.name ∉ Dj.files.map (fun f => f.name) →
          dn.Lookup F.name = .error Errno.ENOENT ∧
          F.name ∉ fes.map (fun e => e.Name))) ∧
    (∀ (ds : List directory) (j : Nat) (D : directory) (p q : Nat) (Fp Fq : file),
      ds[j]? = some D →
      (∀ (k : Nat) (D2 : directory), j < k → ds[k]? = some D2 → D2.name ≠ D.name) →
      p < q → D.files[p]? = some Fp → D.files[q]? = some Fq → Fp.name = Fq.name →
      (∀ (r : Nat) (F2 : file), q < r → D.files[r]? = some F2 → F2.name ≠ Fq.name) →
      ∃ filesys root dn fn fes, buildTree ds = .ok filesys ∧ filesys.Root = .ok root ∧
        root.Lookup D.name = .ok dn ∧ dn.Lookup Fp.name = .ok fn ∧
        fn.Content = bytesOf Fq.content ∧ dn.ReadDirAll = .ok fes ∧
        (fes.map (fun e => e.Name)).count Fq.name = 1) := by
  constructor
  · intro ds i j Di Dj _ _ hj hname hlast
    obtain ⟨es, hes, hcount, hlook⟩ := root_last_directory ds j Dj hj hlast
    obtain ⟨fes, hfes, _, hnames, hfound, hmiss, hchild⟩ := dirNode_children j Dj
    refine ⟨_, _, es, dirNode j Dj, fes, buildTree_eq ds, rfl, hes, hcount, ?_, hlook, rfl,
      hfes, hnames, hfound, ?_, ?_⟩
    · rw [hname]
      exact hlook
    · intro name c hc
      obtain ⟨F, hF, h1, h2, h3, _⟩ := hchild name c hc
      exact ⟨F, hF, h1, h2, h3⟩
    · intro F _ hF
      exact ⟨hmiss F.name hF, fun h => hF ((hnames F.name).1 h)⟩
  · intro ds j D p q Fp Fq hj hlast _ _ hq hname hlastq
    obtain ⟨es, _, _, hlook⟩ := root_last_directory ds j D hj hlast
    obtain ⟨fes, hfes, hnd, hnames, _, _, _⟩ := dirNode_children j D
    have hget := mapGet_childrenFrom_last j D.files [] q Fq hq hlastq
    refine ⟨_, _, dirNode j D, fileNode j Fq, fes, buildTree_eq ds, rfl, hlook, ?_, rfl,
      hfes, ?_⟩
    · rw [hname]
      simp [Node.Lookup, dirNode, hget]
    · refine List.count_eq_one_of_mem hnd ((hnames Fq.name).2 ?_)
      exact List.mem_map.2 ⟨Fq, List.getElem?_mem hq, rfl⟩

/-- A dataset with the directory "a" twice, the second time with the file "y"
twice: the node found under "a" has the identifier 1, the file "x" of the
first "a" is not found in it, and "y" has the content of its second file. -/
theorem duplicate_names_last_wins_example :
    (∃ filesys root es dn fes,
      buildTree [⟨"a", [⟨"x", "1"⟩]⟩, ⟨"a", [⟨"y", "2"⟩, ⟨"y", "3"⟩]⟩] = .ok filesys ∧
      filesys.Root = .ok root ∧ root.ReadDirAll = .ok es ∧
      (es.map (fun e => e.Name)).count "a" = 1 ∧
      root.Lookup "a" = .ok dn ∧ dn.Inode = 1 ∧ dn.ReadDirAll = .ok fes ∧
      dn.Lookup "x" = .error Errno.ENOENT ∧ "x" ∉ fes.map (fun e => e.Name)) ∧
    (∃ filesys root dn fn fes,
      buildTree [⟨"a", [⟨"x", "1"⟩]⟩, ⟨"a", [⟨"y", "2"⟩, ⟨"y", "3"⟩]⟩] = .ok filesys ∧
      filesys.Root = .ok root ∧ root.Lookup "a" = .ok dn ∧ dn.Lookup "y" = .ok fn ∧
      fn.Content = bytesOf "3" ∧ dn.ReadDirAll = .ok fes ∧
      (fes.map (fun e => e.Name)).count "y" = 1) :=
  by
  have hlast : ∀ (k : Nat) (D2 : directory), 1 < k →
      ([⟨"a", [⟨"x", "1"⟩]⟩, ⟨"a", [⟨"y", "2"⟩, ⟨"y", "3"⟩]⟩] : List directory)[k]? = some D2 →
      D2.name ≠ "a" := by
    intro k D2 hk h
    rw [List.getElem?_eq_none (by simpa using hk)] at h
    cases h
  have hlastq : ∀ (r : Nat) (F2 : file), 1 < r →
      ([⟨"y", "2"⟩, ⟨"y", "3"⟩] : List file)[r]? = some F2 → F2.name ≠ "y" := by
    intro r F2 hr h
    rw [List.getElem?_eq_none (by simpa using hr)] at h
    cases h
  constructor
  · obtain ⟨filesys, root, es, dn, fes, h1, h2, h3, h4, _, h6, h7, h8, _, _, _, h12⟩ :=
      duplicate_names_last_wins.1 [⟨"a", [⟨"x", "1"⟩]⟩, ⟨"a", [⟨"y", "2"⟩, ⟨"y", "3"⟩]⟩] 0 1
        ⟨"a", [⟨"x", "1"⟩]⟩ ⟨"a", [⟨"y", "2"⟩, ⟨"y", "3"⟩]⟩ (by decide) rfl rfl rfl hlast
    exact ⟨filesys, root, es, dn, fes, h1, h2, h3, h4, h6, h7, h8,
      h12 ⟨"x", "1"⟩ (List.mem_cons_self _ _) (by decide)⟩
  · exact duplicate_names_last_wins.2 [⟨"a", [⟨"x", "1"⟩]⟩, ⟨"a", [⟨"y", "2"⟩, ⟨"y", "3"⟩]⟩] 1
      ⟨"a", [⟨"y", "2"⟩, ⟨"y", "3"⟩]⟩ 0 1 ⟨"y", "2"⟩ ⟨"y", "3"⟩ rfl hlast (by decide) rfl rfl
      rfl hlastq

end FuseDemo
